import Mathlib

/-!
Verification of the multi-core scheduler simulator
(`src/libpriqueue/libpriqueue.c`, `src/libscheduler/libscheduler.c`).

The C code is shallowly embedded: the linked-list priority queue becomes a
`List`, the core array becomes `List (Option Job)`, the process-wide globals
become fields of `SchedState`, and every C function that can hit undefined
behaviour or `exit(1)` returns an `Option` whose `none` marks that event.
Machine `int`s are modelled as `Int` (overflow is out of scope for the
properties below), and the `double` statistic accumulators hold exact integer
credits, so they are modelled as `Int` with the averages computed in `ℚ`.
-/

namespace Sched

/-- The six scheduling disciplines (`scheme_t`). -/
inductive Scheme where
  | FCFS | SJF | PSJF | PRI | PPRI | RR
deriving DecidableEq, Repr

/-- `job_t` from `libscheduler.c`: identity, immutable parameters and the
mutable bookkeeping fields (`initTime` is `first_dispatch_time`, `lastTime`
is `last_dispatch_time`; `-1` is the "unset" sentinel for both). -/
structure Job where
  jobNumber : Int
  arrivalTime : Int
  runTime : Int
  remainingTime : Int
  priority : Int
  initTime : Int
  lastTime : Int
deriving DecidableEq, Repr

/-- The comparator `compare` from `libscheduler.c`, with the process-wide
`curScheme` passed explicitly.  Each branch returns the corresponding
difference of fields. -/
def compare (scheme : Scheme) (jobA jobB : Job) : Int :=
  match scheme with
  | Scheme.FCFS => jobA.arrivalTime - jobB.arrivalTime
  | Scheme.SJF =>
      if jobA.runTime - jobB.runTime = 0 then jobA.arrivalTime - jobB.arrivalTime
      else jobA.runTime - jobB.runTime
  | Scheme.PSJF =>
      if jobA.remainingTime - jobB.remainingTime = 0 then jobA.arrivalTime - jobB.arrivalTime
      else jobA.remainingTime - jobB.remainingTime
  | Scheme.PRI =>
      if jobA.priority - jobB.priority = 0 then jobA.arrivalTime - jobB.arrivalTime
      else jobA.priority - jobB.priority
  | Scheme.PPRI =>
      if jobA.priority - jobB.priority = 0 then jobA.arrivalTime - jobB.arrivalTime
      else jobA.priority - jobB.priority
  | Scheme.RR => 0

/-- The primary comparator key of a preemptive scheme (remaining time for
PSJF, priority for PPRI; for the other schemes the field the comparator
orders by first). -/
def schemeKey (scheme : Scheme) (j : Job) : Int :=
  match scheme with
  | Scheme.FCFS => j.arrivalTime
  | Scheme.SJF => j.runTime
  | Scheme.PSJF => j.remainingTime
  | Scheme.PRI => j.priority
  | Scheme.PPRI => j.priority
  | Scheme.RR => 0

/-! ### The priority queue (`libpriqueue.c`)

The linked list of `node`s is a `List α`; `q->size` is passed explicitly
(the scheduler keeps it equal to the list length).  Walking a NULL pointer
is modelled by returning `none` at the outermost level. -/

/-- The traversal loop of `priqueue_offer`: `trav` is the node the C cursor
points at, the `Nat` argument is the remaining number of loop iterations
(`q->size - i`).  Returns the insertion index relative to `trav` and the
rebuilt suffix; `none` is the C fall-through `return -1`. -/
def offerLoop {α : Type} (c : α → α → Int) (x : α) :
    Nat → α → List α → Option (Nat × List α)
  | 0, _, _ => none
  | _ + 1, trav, [] => some (1, [trav, x])
  | fuel + 1, trav, y :: ys =>
      if c x y < 0 then some (1, trav :: x :: y :: ys)
      else (offerLoop c x fuel y ys).map (fun p => (p.1 + 1, trav :: p.2))

/-- `priqueue_offer`: the empty-queue branch, the head branch, then the
traversal loop over at most `size` iterations.  `none` covers the two
paths a real `priqueue_t` cannot reach when `size` equals the list length:
dereferencing a NULL head (`size ≠ 0` with an empty node list) and the
trailing `return -1`. -/
def priqueue_offer {α : Type} (c : α → α → Int) (size : Nat) (q : List α)
    (x : α) : Option (Nat × List α) :=
  if size = 0 then some (0, [x])
  else
    match q with
    | [] => none
    | h :: t => if c x h < 0 then some (0, x :: h :: t) else offerLoop c x size h t

/-- `priqueue_peek`: head data without removal, NULL when empty. -/
def priqueue_peek {α : Type} : List α → Option α
  | [] => none
  | h :: _ => some h

/-- `priqueue_poll`: remove and return the head, NULL when empty. -/
def priqueue_poll {α : Type} : List α → Option (α × List α)
  | [] => none
  | h :: t => some (h, t)

/-- `priqueue_at`.  The C only checks `index < q->size`, so a negative
index enters the walk: the `for` loop body never runs, `traverse` is still
`q->head`, and `traverse->data` is returned — the head for a non-empty
queue, a NULL dereference (outer `none`) for an empty one. -/
def priqueue_at {α : Type} (q : List α) (index : Int) : Option (Option α) :=
  if index < (q.length : Int) then
    if 0 ≤ index then
      match q.get? index.toNat with
      | some a => some (some a)
      | none => none
    else
      match q with
      | [] => none
      | h :: _ => some (some h)
  else some none

/-- `priqueue_remove`: drop every entry whose stored pointer equals the
target.  Pointer identity is keyed here by `jobNumber`-style identity
supplied as a predicate result, matching the two-phase unlink loop of the
C, which removes all matching nodes in order. -/
def priqueue_remove {α : Type} (q : List α) (isTarget : α → Bool) :
    Nat × List α :=
  (q.countP isTarget, q.filter (fun a => !isTarget a))

/-- `priqueue_remove_at`.  The guard is `index < q->size` only.  For
`1 ≤ index < size` the walk leaves `prev` on node `index - 1` and unlinks
node `index`.  For `index ≤ 0` the loop body never runs, so `prev` is still
NULL: with an empty list `traverse->data` dereferences NULL, and otherwise
`prev->nextNode = traverse->nextNode` dereferences NULL — both are the
outer `none`. -/
def priqueue_remove_at {α : Type} (q : List α) (index : Int) :
    Option (Option α × List α) :=
  if index < (q.length : Int) then
    if 1 ≤ index then
      match q.get? index.toNat with
      | some a => some (some a, q.eraseIdx index.toNat)
      | none => none
    else none
  else some (none, q)

/-- The index at which `priqueue_offer` stores a new element: the first
position whose element compares strictly greater than `x`, else the length
(insertion at the tail). -/
def offerPos {α : Type} (c : α → α → Int) (x : α) : List α → Nat
  | [] => 0
  | y :: ys => if c x y < 0 then 0 else offerPos c x ys + 1

/-! ### The scheduler engine (`libscheduler.c`)

The process-wide globals (`curScheme`, `mQueue`, `cpu`, `currentTime` and
the six statistic accumulators) become the fields of `SchedState`; the
`finishedIds` field is a ghost record of the ids credited by
`scheduler_job_finished` (the C frees those jobs).  Handlers return
`none` exactly on the `exit(1)` paths and on C undefined behaviour
(dereferencing an empty core slot). -/

structure SchedState where
  scheme : Scheme
  queue : List Job
  cores : List (Option Job)
  currentTime : Int
  totalWaitTime : Int
  numWaiting : Int
  totalRespTime : Int
  numResponse : Int
  totalTurnAroundTime : Int
  numTurnAround : Int
  finishedIds : List Int
deriving DecidableEq, Repr

/-- The per-job body of the `cpuUpdateTime` loop: the updated job together
with the response-time credit and response-counter increment it produces.
The C tests `job->lastTime != time`; the `initTime` assignment happens
before `remainingTime` is decremented using the old `lastTime`. -/
def jobTick (time : Int) (j : Job) : Job × Int × Int :=
  if j.initTime = -1 ∧ j.lastTime ≠ time then
    ({ j with initTime := j.lastTime,
              remainingTime := j.remainingTime - (time - j.lastTime),
              lastTime := time },
     j.lastTime - j.arrivalTime, 1)
  else
    ({ j with remainingTime := j.remainingTime - (time - j.lastTime),
              lastTime := time }, 0, 0)

/-- `cpuUpdateTime`: set the clock, apply `jobTick` to every occupied core
and accumulate the response credits (the C does both in its single loop
over the cores). -/
def cpuUpdateTime (s : SchedState) (time : Int) : SchedState :=
  { s with
    currentTime := time,
    cores := s.cores.map (Option.map (fun j => (jobTick time j).1)),
    totalRespTime := s.totalRespTime +
      ((s.cores.filterMap id).map (fun j => (jobTick time j).2.1)).sum,
    numResponse := s.numResponse +
      ((s.cores.filterMap id).map (fun j => (jobTick time j).2.2)).sum }

/-- The scan of `cpuCoresAvailable`: index of the first NULL slot starting
from `i`, `-1` when every slot is occupied. -/
def firstIdleFrom : List (Option Job) → Nat → Int
  | [], _ => -1
  | none :: _, i => (i : Int)
  | some _ :: rest, i => firstIdleFrom rest (i + 1)

/-- `cpuCoresAvailable`: lowest-numbered idle core, `-1` if all busy. -/
def cpuCoresAvailable (cores : List (Option Job)) : Int :=
  firstIdleFrom cores 0

/-- `cpuCoreAssignJob`: `exit(1)` when the slot is occupied (outer `none`,
which also covers an out-of-range index); otherwise store the job with
`lastTime := currentTime`. -/
def cpuCoreAssignJob (s : SchedState) (index : Nat) (job : Job) :
    Option SchedState :=
  match s.cores[index]? with
  | some none =>
      some { s with
        cores := s.cores.set index (some { job with lastTime := s.currentTime }) }
  | _ => none

/-- `cpuCoreRemoveJob`: range check, occupant-id check (dereferencing a
NULL occupant is the outer `none`), then clear the slot, mark the job
not-running and offer it back into the ready queue. -/
def cpuCoreRemoveJob (s : SchedState) (core_id : Int) (job_number : Int) :
    Option (Job × SchedState) :=
  if core_id < 0 ∨ (s.cores.length : Int) ≤ core_id then none
  else
    match s.cores[core_id.toNat]? with
    | some (some j) =>
        if j.jobNumber ≠ job_number then none
        else
          let j' := { j with lastTime := -1 }
          match priqueue_offer (compare s.scheme) s.queue.length s.queue j' with
          | some (_, q') =>
              some (j', { s with cores := s.cores.set core_id.toNat none, queue := q' })
          | none => none
    | _ => none

/-- The victim-selection loop of `cpuCorePreempt`: walk the cores keeping
the most negative `compare(job, cpu.jobs[i])` seen so far together with
its index and occupant; on an exact tie switch to the occupant with the
later arrival time.  A NULL slot would be dereferenced by `compare`, hence
the outer `none`. -/
def preemptLoop (f : Job → Int) :
    List (Option Job) → Nat → Int → Option (Nat × Job) → Option (Option (Nat × Job))
  | [], _, _, chosen => some chosen
  | none :: _, _, _, _ => none
  | some j :: rest, i, curr, chosen =>
      if f j < curr then preemptLoop f rest (i + 1) (f j) (some (i, j))
      else if f j = curr then
        match chosen with
        | some (ci, cj) =>
            if cj.arrivalTime < j.arrivalTime then
              preemptLoop f rest (i + 1) curr (some (i, j))
            else preemptLoop f rest (i + 1) curr (some (ci, cj))
        | none => preemptLoop f rest (i + 1) curr none
      else preemptLoop f rest (i + 1) curr chosen

/-- `cpuCorePreempt`: `exit(1)` unless every core is busy; run the scan;
when it selects a core, remove its occupant (which re-enters the ready
queue) and assign the candidate there; return the selected index or
`-1`. -/
def cpuCorePreempt (s : SchedState) (job : Job) : Option (Int × SchedState) :=
  if cpuCoresAvailable s.cores ≠ -1 then none
  else
    match preemptLoop (fun j => compare s.scheme job j) s.cores 0 0 none with
    | none => none
    | some none => some (-1, s)
    | some (some (i, v)) =>
        match cpuCoreRemoveJob s (i : Int) v.jobNumber with
        | some (_, s1) =>
            match cpuCoreAssignJob s1 i job with
            | some s2 => some ((i : Int), s2)
            | none => none
        | none => none

/-- `scheduler_start_up`: fresh globals, `cores` empty slots, then the
initial `cpuUpdateTime(0)`. -/
def scheduler_start_up (cores : Nat) (scheme : Scheme) : SchedState :=
  cpuUpdateTime
    { scheme := scheme, queue := [], cores := List.replicate cores none,
      currentTime := 0, totalWaitTime := 0, numWaiting := 0,
      totalRespTime := 0, numResponse := 0, totalTurnAroundTime := 0,
      numTurnAround := 0, finishedIds := [] } 0

/-- The job record `scheduler_new_job` mallocs and fills in. -/
def newJob (job_number time running_time priority : Int) : Job :=
  { jobNumber := job_number, arrivalTime := time, runTime := running_time,
    remainingTime := running_time, priority := priority,
    initTime := -1, lastTime := -1 }

/-- `scheduler_new_job`: advance time, build the job, take the lowest idle
core if any; otherwise preempt under PSJF/PPRI (enqueuing the candidate
when no victim is found) or enqueue under the other schemes.  The debug
`printf`s touch no state and are dropped. -/
def scheduler_new_job (s : SchedState) (job_number time running_time priority : Int) :
    Option (Int × SchedState) :=
  let s1 := cpuUpdateTime s time
  let job : Job := newJob job_number time running_time priority
  let workingCore := cpuCoresAvailable s1.cores
  if workingCore ≠ -1 then
    match cpuCoreAssignJob s1 workingCore.toNat job with
    | some s2 => some (workingCore, s2)
    | none => none
  else if s1.scheme = Scheme.PSJF ∨ s1.scheme = Scheme.PPRI then
    match cpuCorePreempt s1 job with
    | some (r, s2) =>
        if r = -1 then
          match priqueue_offer (compare s2.scheme) s2.queue.length s2.queue job with
          | some (_, q') => some (r, { s2 with queue := q' })
          | none => none
        else some (r, s2)
    | none => none
  else
    match priqueue_offer (compare s1.scheme) s1.queue.length s1.queue job with
    | some (_, q') => some (-1, { s1 with queue := q' })
    | none => none

/-- `scheduler_job_finished`: advance time, release the core (the removed
job transits through the ready queue and is taken back out by
`priqueue_remove`), credit waiting and turnaround statistics at the
current clock, record the id as finished, then dispatch the queue head to
the freed core if any. -/
def scheduler_job_finished (s : SchedState) (core_id job_number time : Int) :
    Option (Int × SchedState) :=
  let s1 := cpuUpdateTime s time
  match cpuCoreRemoveJob s1 core_id job_number with
  | none => none
  | some (j, s2) =>
      let q2 := (priqueue_remove s2.queue (fun a => a.jobNumber = j.jobNumber)).2
      let s3 := { s2 with
        queue := q2,
        totalWaitTime := s2.totalWaitTime + (s2.currentTime - j.arrivalTime - j.runTime),
        numWaiting := s2.numWaiting + 1,
        totalTurnAroundTime := s2.totalTurnAroundTime + (s2.currentTime - j.arrivalTime),
        numTurnAround := s2.numTurnAround + 1,
        finishedIds := j.jobNumber :: s2.finishedIds }
      match priqueue_poll s3.queue with
      | some (nj, q3) =>
          match cpuCoreAssignJob { s3 with queue := q3 } core_id.toNat nj with
          | some s4 => some (nj.jobNumber, s4)
          | none => none
      | none => some (-1, s3)

/-- `scheduler_quantum_expired`: advance time, read the occupant's id off
the core (NULL dereference — outer `none` — when the slot is empty or the
index is out of range), release the core (the job re-enters the ready
queue), then dispatch the poll result back onto the core. -/
def scheduler_quantum_expired (s : SchedState) (core_id time : Int) :
    Option (Int × SchedState) :=
  let s1 := cpuUpdateTime s time
  match (if 0 ≤ core_id then s1.cores[core_id.toNat]? else none) with
  | some (some j) =>
      match cpuCoreRemoveJob s1 core_id j.jobNumber with
      | some (_, s2) =>
          match priqueue_poll s2.queue with
          | some (nj, q3) =>
              match cpuCoreAssignJob { s2 with queue := q3 } core_id.toNat nj with
              | some s3 => some (nj.jobNumber, s3)
              | none => none
          | none => some (-1, s2)
      | none => none
  | _ => none

/-- `scheduler_average_waiting_time`: sum over counter, `0.0` for a zero
counter.  The `double` value is modelled exactly in `ℚ`. -/
def scheduler_average_waiting_time (s : SchedState) : ℚ :=
  if s.numWaiting ≠ 0 then (s.totalWaitTime : ℚ) / (s.numWaiting : ℚ) else 0

/-- `scheduler_average_turnaround_time`. -/
def scheduler_average_turnaround_time (s : SchedState) : ℚ :=
  if s.numTurnAround ≠ 0 then (s.totalTurnAroundTime : ℚ) / (s.numTurnAround : ℚ) else 0

/-- `scheduler_average_response_time`. -/
def scheduler_average_response_time (s : SchedState) : ℚ :=
  if s.numResponse ≠ 0 then (s.totalRespTime : ℚ) / (s.numResponse : ℚ) else 0

/-! ### Comparator lemmas -/

theorem compare_antisymm (sch : Scheme) (a b : Job) :
    compare sch a b = -compare sch b a := by
  cases sch <;> simp only [compare] <;> (try split_ifs) <;> omega

theorem compare_lt_of_lt_of_le (sch : Scheme) (a b c : Job)
    (h1 : compare sch a b < 0) (h2 : compare sch b c ≤ 0) :
    compare sch a c < 0 := by
  cases sch <;> simp only [compare] at * <;> (try split_ifs at *) <;> omega

/-! ### `priqueue_offer` characterization -/

theorem offerLoop_eq {α : Type} (c : α → α → Int) (x : α) :
    ∀ (t : List α) (trav : α) (fuel : Nat), t.length < fuel →
      offerLoop c x fuel trav t =
        some (offerPos c x t + 1,
          trav :: (t.take (offerPos c x t) ++ x :: t.drop (offerPos c x t))) := by
  intro t
  induction t with
  | nil =>
      intro trav fuel hf
      match fuel, hf with
      | f + 1, _ => simp [offerLoop, offerPos]
  | cons y ys ih =>
      intro trav fuel hf
      match fuel, hf with
      | f + 1, hf =>
        simp only [List.length_cons] at hf
        by_cases hc : c x y < 0
        · simp [offerLoop, offerPos, hc]
        · have hlen : ys.length < f := by omega
          simp [offerLoop, offerPos, hc, ih y f hlen]

theorem priqueue_offer_eq {α : Type} (c : α → α → Int) (q : List α) (x : α) :
    priqueue_offer c q.length q x =
      some (offerPos c x q,
        q.take (offerPos c x q) ++ x :: q.drop (offerPos c x q)) := by
  cases q with
  | nil => simp [priqueue_offer, offerPos]
  | cons h t =>
      by_cases hc : c x h < 0
      · simp [priqueue_offer, offerPos, hc]
      · have hrw := offerLoop_eq c x t h (t.length + 1) (by omega)
        simp [priqueue_offer, offerPos, hc, hrw]

theorem offerPos_le {α : Type} (c : α → α → Int) (x : α) :
    ∀ q : List α, offerPos c x q ≤ q.length := by
  intro q
  induction q with
  | nil => simp [offerPos]
  | cons y ys ih =>
      simp only [offerPos, List.length_cons]
      split_ifs <;> omega

theorem offerPos_take_not_lt {α : Type} (c : α → α → Int) (x : α) :
    ∀ (q : List α) (e : α), e ∈ q.take (offerPos c x q) → ¬ c x e < 0 := by
  intro q
  induction q with
  | nil => simp [offerPos]
  | cons y ys ih =>
      intro e he
      simp only [offerPos] at he
      split_ifs at he with hc
      · simp at he
      · simp only [List.take_succ_cons, List.mem_cons] at he
        rcases he with rfl | he
        · exact hc
        · exact ih e he

theorem offerPos_first_lt {α : Type} (c : α → α → Int) (x : α) :
    ∀ (q : List α) (e : α), q[offerPos c x q]? = some e → c x e < 0 := by
  intro q
  induction q with
  | nil => simp [offerPos]
  | cons y ys ih =>
      intro e he
      simp only [offerPos] at he
      split_ifs at he with hc
      · simp only [List.getElem?_cons_zero, Option.some.injEq] at he
        exact he ▸ hc
      · simp only [List.getElem?_cons_succ] at he
        exact ih e he

theorem pairwise_rel_of_getElem {α : Type} {R : α → α → Prop} {l : List α}
    (hp : l.Pairwise R) {i j : Nat} (hij : i < j) {a b : α}
    (ha : l[i]? = some a) (hb : l[j]? = some b) : R a b := by
  rw [List.getElem?_eq_some_iff] at ha hb
  obtain ⟨hi, rfl⟩ := ha
  obtain ⟨hj, rfl⟩ := hb
  exact List.pairwise_iff_getElem.mp hp i j hi hj hij

/-- Sample jobs used by the concrete witnesses below. -/
def jA : Job :=
  { jobNumber := 1, arrivalTime := 0, runTime := 5, remainingTime := 5,
    priority := 2, initTime := -1, lastTime := -1 }

def jB : Job :=
  { jobNumber := 2, arrivalTime := 1, runTime := 3, remainingTime := 3,
    priority := 1, initTime := -1, lastTime := 0 }

def jC : Job :=
  { jobNumber := 3, arrivalTime := 2, runTime := 8, remainingTime := 8,
    priority := 3, initTime := -1, lastTime := -1 }

/-- C10: on a well-formed queue (stored size equal to the node-list
length) `priqueue_offer` always succeeds through one of its insertion
branches with an index in `[0, size]`; the trailing `return -1` is
unreachable. -/
theorem c10_offer_never_errors {α : Type} (c : α → α → Int) (q : List α)
    (x : α) (size : Nat) (hwf : size = q.length) :
    ∃ n q', priqueue_offer c size q x = some (n, q') ∧ n ≤ size := by
  subst hwf
  exact ⟨_, _, priqueue_offer_eq c q x, offerPos_le c x q⟩

theorem c10_offer_never_errors_witness :
    ∃ n q', priqueue_offer (compare Scheme.FCFS) 2 [jA, jB] jC = some (n, q') ∧ n ≤ 2 :=
  c10_offer_never_errors (compare Scheme.FCFS) [jA, jB] jC 2 rfl

/-- C6: on a queue sorted non-decreasing under the active comparator,
`priqueue_offer` inserts the new job at the returned zero-based index, the
result is again sorted, every element left of the insertion point compares
`≤` the new job (so in particular every equal-keyed element stays in front
of it — stable insertion). -/
theorem c6_offer_stable_sorted (sch : Scheme) (q : List Job) (x : Job)
    (hs : q.Pairwise (fun a b => compare sch a b ≤ 0)) :
    ∃ p, priqueue_offer (compare sch) q.length q x
        = some (p, q.take p ++ x :: q.drop p) ∧
      p ≤ q.length ∧
      (q.take p ++ x :: q.drop p)[p]? = some x ∧
      (q.take p ++ x :: q.drop p).Pairwise (fun a b => compare sch a b ≤ 0) ∧
      (∀ e ∈ q.take p, 0 ≤ compare sch x e) ∧
      (∀ i e, q[i]? = some e → compare sch x e = 0 → i < p) := by
  refine ⟨offerPos (compare sch) x q, priqueue_offer_eq _ q x, offerPos_le _ x q, ?_, ?_, ?_, ?_⟩
  · have hlen : (q.take (offerPos (compare sch) x q)).length = offerPos (compare sch) x q := by
      simp [List.length_take, Nat.min_eq_left (offerPos_le (compare sch) x q)]
    rw [List.getElem?_append_right (by omega), hlen]
    simp
  · rw [List.pairwise_append]
    refine ⟨hs.sublist (List.take_sublist _ _), ?_, ?_⟩
    · refine List.pairwise_cons.mpr ⟨?_, hs.sublist (List.drop_sublist _ _)⟩
      intro e he
      rw [List.mem_iff_getElem?] at he
      obtain ⟨k, hk⟩ := he
      rw [List.getElem?_drop] at hk
      rcases Nat.eq_zero_or_pos k with rfl | hkpos
      · exact le_of_lt (offerPos_first_lt _ x q e (by simpa using hk))
      · obtain ⟨hklen, -⟩ := List.getElem?_eq_some_iff.mp hk
        have hp : offerPos (compare sch) x q < q.length := by omega
        obtain ⟨d, hd⟩ : ∃ d, q[offerPos (compare sch) x q]? = some d :=
          ⟨_, List.getElem?_eq_getElem hp⟩
        have h1 := offerPos_first_lt _ x q d hd
        have h2 : compare sch d e ≤ 0 :=
          pairwise_rel_of_getElem hs (by omega) hd hk
        exact le_of_lt (compare_lt_of_lt_of_le sch x d e h1 h2)
    · intro a ha b hb
      rcases List.mem_cons.mp hb with rfl | hb
      · have := offerPos_take_not_lt (compare sch) b q a ha
        have := compare_antisymm sch a b
        omega
      · have hq := hs
        conv at hq => rw [← List.take_append_drop (offerPos (compare sch) x q) q]
        exact (List.pairwise_append.mp hq).2.2 a ha b hb
  · intro e he
    have := offerPos_take_not_lt (compare sch) x q e he
    omega
  · intro i e hi he
    by_contra hlt
    push_neg at hlt
    obtain ⟨hip, -⟩ := List.getElem?_eq_some_iff.mp hi
    have hp : offerPos (compare sch) x q < q.length := by omega
    obtain ⟨d, hd⟩ : ∃ d, q[offerPos (compare sch) x q]? = some d :=
      ⟨_, List.getElem?_eq_getElem hp⟩
    have h1 := offerPos_first_lt _ x q d hd
    rcases Nat.lt_or_ge (offerPos (compare sch) x q) i with hlt2 | hge
    · have h2 : compare sch d e ≤ 0 := pairwise_rel_of_getElem hs hlt2 hd hi
      have := compare_lt_of_lt_of_le sch x d e h1 h2
      omega
    · have : offerPos (compare sch) x q = i := by omega
      rw [this, hi] at hd
      cases hd
      omega

theorem c6_offer_stable_sorted_witness :
    ∃ p, priqueue_offer (compare Scheme.SJF) ([jB, jA] : List Job).length [jB, jA] jC
        = some (p, ([jB, jA] : List Job).take p ++ jC :: ([jB, jA] : List Job).drop p) ∧
      p ≤ ([jB, jA] : List Job).length ∧
      (([jB, jA] : List Job).take p ++ jC :: ([jB, jA] : List Job).drop p)[p]? = some jC ∧
      (([jB, jA] : List Job).take p ++ jC :: ([jB, jA] : List Job).drop p).Pairwise
        (fun a b => compare Scheme.SJF a b ≤ 0) ∧
      (∀ e ∈ ([jB, jA] : List Job).take p, 0 ≤ compare Scheme.SJF jC e) ∧
      (∀ i e, ([jB, jA] : List Job)[i]? = some e → compare Scheme.SJF jC e = 0 → i < p) :=
  c6_offer_stable_sorted Scheme.SJF [jB, jA] jC (by decide)

/-- C3 (failing input): `priqueue_remove_at` at index `0` of a non-empty
queue — an index inside `[0, size)` — dereferences the NULL `prev`
pointer (`prev->nextNode = traverse->nextNode` with `prev == NULL`)
instead of removing and returning the head, so the operation does have an
error path. -/
theorem c3_remove_at_zero_crashes :
    0 < ([jA] : List Job).length ∧ priqueue_remove_at ([jA] : List Job) 0 = none := by
  constructor
  · decide
  · rfl

/-- C4 (failing input): `priqueue_at` only guards `index < q->size`, so
the negative index `-1` walks zero steps and returns the head of a
non-empty queue rather than the absent sentinel; on the empty queue the
same call dereferences NULL. -/
theorem c4_at_negative_not_null :
    priqueue_at ([jA] : List Job) (-1) = some (some jA) ∧
    priqueue_at ([] : List Job) (-1) = none := by
  constructor <;> rfl

/-- Auxiliary: an all-`none` core array contributes no occupied job. -/
theorem filterMap_id_replicate_none (n : Nat) :
    (List.replicate n (none : Option Job)).filterMap id = [] := by
  induction n with
  | zero => rfl
  | succ k ih => simp [List.replicate_succ, ih]

/-- C9: each average is the accumulated sum over its counter and exactly
`0` on a zero counter; a run with no events between `start_up` and
`clean_up` reports all three averages as `0`. -/
theorem c9_averages (s : SchedState) :
    (s.numWaiting = 0 → scheduler_average_waiting_time s = 0) ∧
    (s.numWaiting ≠ 0 →
      scheduler_average_waiting_time s = (s.totalWaitTime : ℚ) / (s.numWaiting : ℚ)) ∧
    (s.numTurnAround = 0 → scheduler_average_turnaround_time s = 0) ∧
    (s.numTurnAround ≠ 0 →
      scheduler_average_turnaround_time s = (s.totalTurnAroundTime : ℚ) / (s.numTurnAround : ℚ)) ∧
    (s.numResponse = 0 → scheduler_average_response_time s = 0) ∧
    (s.numResponse ≠ 0 →
      scheduler_average_response_time s = (s.totalRespTime : ℚ) / (s.numResponse : ℚ)) ∧
    (∀ (n : Nat) (sch : Scheme),
      scheduler_average_waiting_time (scheduler_start_up n sch) = 0 ∧
      scheduler_average_turnaround_time (scheduler_start_up n sch) = 0 ∧
      scheduler_average_response_time (scheduler_start_up n sch) = 0) := by
  refine ⟨?_, ?_, ?_, ?_, ?_, ?_, ?_⟩
  · intro h
    simp [scheduler_average_waiting_time, h]
  · intro h
    simp [scheduler_average_waiting_time, h]
  · intro h
    simp [scheduler_average_turnaround_time, h]
  · intro h
    simp [scheduler_average_turnaround_time, h]
  · intro h
    simp [scheduler_average_response_time, h]
  · intro h
    simp [scheduler_average_response_time, h]
  · intro n sch
    refine ⟨?_, ?_, ?_⟩ <;>
      simp [scheduler_average_waiting_time, scheduler_average_turnaround_time,
        scheduler_average_response_time, scheduler_start_up, cpuUpdateTime,
        filterMap_id_replicate_none]

theorem c9_averages_witness :
    scheduler_average_waiting_time (scheduler_start_up 4 Scheme.FCFS) = 0 :=
  (c9_averages (scheduler_start_up 4 Scheme.FCFS)).1 rfl

/-- C5: during the time advance, a job occupying a core has its
`first_dispatch_time` assigned — to its `last_dispatch_time`, with the
response credit `first_dispatch_time - arrival_time` and a counter
increment of one — exactly when it was unset and `last_dispatch_time`
is strictly before the new time; an already-set `first_dispatch_time` is
never reassigned, and a dispatch at the very same timestamp contributes
no response.  The accumulator receives the sum of the per-core credits. -/
theorem c5_first_dispatch (s : SchedState) (time : Int) (i : Nat) (j : Job)
    (hget : s.cores[i]? = some (some j)) (h0 : 0 ≤ j.lastTime)
    (hle : j.lastTime ≤ time) :
    (cpuUpdateTime s time).cores[i]? = some (some (jobTick time j).1) ∧
    ((j.initTime = -1 ∧ j.lastTime < time) →
      (jobTick time j).1.initTime = j.lastTime ∧
      (jobTick time j).1.initTime ≠ -1 ∧
      (jobTick time j).2.1 = j.lastTime - j.arrivalTime ∧
      (jobTick time j).2.2 = 1) ∧
    (¬(j.initTime = -1 ∧ j.lastTime < time) →
      (jobTick time j).1.initTime = j.initTime ∧
      (jobTick time j).2.1 = 0 ∧ (jobTick time j).2.2 = 0) ∧
    (j.initTime ≠ -1 → (jobTick time j).1.initTime = j.initTime) ∧
    (j.lastTime = time → (jobTick time j).2.2 = 0) ∧
    (cpuUpdateTime s time).totalRespTime =
      s.totalRespTime + ((s.cores.filterMap id).map (fun k => (jobTick time k).2.1)).sum ∧
    (cpuUpdateTime s time).numResponse =
      s.numResponse + ((s.cores.filterMap id).map (fun k => (jobTick time k).2.2)).sum := by
  refine ⟨?_, ?_, ?_, ?_, ?_, rfl, rfl⟩
  · simp [cpuUpdateTime, List.getElem?_map, hget]
  · intro hset
    have hne : j.lastTime ≠ time := by omega
    have hne1 : ¬j.lastTime = -1 := by omega
    simp [jobTick, hset.1, hne, hne1]
  · intro hnot
    by_cases hinit : j.initTime = -1
    · have hlast : j.lastTime = time := by
        rcases Decidable.lt_or_eq_of_le hle with h | h
        · exact absurd ⟨hinit, h⟩ hnot
        · exact h
      simp [jobTick, hlast]
    · simp [jobTick, hinit]
  · intro hinit
    simp [jobTick, hinit]
  · intro hlast
    simp [jobTick, hlast]

/-! ### Small facts about `cpuUpdateTime` and the core scan -/

theorem cpuUpdateTime_scheme (s : SchedState) (t : Int) :
    (cpuUpdateTime s t).scheme = s.scheme := rfl

theorem cpuUpdateTime_queue (s : SchedState) (t : Int) :
    (cpuUpdateTime s t).queue = s.queue := rfl

theorem cpuUpdateTime_currentTime (s : SchedState) (t : Int) :
    (cpuUpdateTime s t).currentTime = t := rfl

theorem cpuUpdateTime_cores (s : SchedState) (t : Int) :
    (cpuUpdateTime s t).cores = s.cores.map (Option.map (fun j => (jobTick t j).1)) := rfl

theorem jobTick_arrivalTime (t : Int) (j : Job) :
    (jobTick t j).1.arrivalTime = j.arrivalTime := by
  simp only [jobTick]
  split_ifs <;> rfl

theorem jobTick_jobNumber (t : Int) (j : Job) :
    (jobTick t j).1.jobNumber = j.jobNumber := by
  simp only [jobTick]
  split_ifs <;> rfl

theorem jobTick_runTime (t : Int) (j : Job) :
    (jobTick t j).1.runTime = j.runTime := by
  simp only [jobTick]
  split_ifs <;> rfl

theorem jobTick_priority (t : Int) (j : Job) :
    (jobTick t j).1.priority = j.priority := by
  simp only [jobTick]
  split_ifs <;> rfl

theorem filterMap_id_map_optionMap {α β : Type} (l : List (Option α)) (f : α → β) :
    (l.map (Option.map f)).filterMap id = (l.filterMap id).map f := by
  induction l with
  | nil => rfl
  | cons o t ih => cases o <;> simp [ih]

theorem firstIdleFrom_eq_neg_iff :
    ∀ (l : List (Option Job)) (i : Nat),
      firstIdleFrom l i = -1 ↔ ∀ oj ∈ l, oj.isSome := by
  intro l
  induction l with
  | nil => simp [firstIdleFrom]
  | cons o rest ih =>
      intro i
      cases o with
      | none =>
          simp only [firstIdleFrom, List.mem_cons]
          constructor
          · intro h
            omega
          · intro h
            exact absurd (h none (Or.inl rfl)) (by simp)
      | some j => simp [firstIdleFrom, ih (i + 1)]

theorem getElem?_filterMap_id_all_some :
    ∀ (l : List (Option Job)), (∀ oj ∈ l, oj.isSome) →
      ∀ (k : Nat) (j : Job), ((l.filterMap id)[k]? = some j ↔ l[k]? = some (some j)) := by
  intro l
  induction l with
  | nil => simp
  | cons o rest ih =>
      intro hall k j
      cases o with
      | none => exact absurd (hall none (List.mem_cons_self _ _)) (by simp)
      | some a =>
          have hrest : ∀ oj ∈ rest, oj.isSome := fun oj h => hall oj (List.mem_cons_of_mem _ h)
          cases k with
          | zero => simp
          | succ m => simpa using ih hrest m j

/-- The loop invariant of the `cpuCorePreempt` scan: what the running
`(cpuIndex, occupant)` pair means about the already-scanned slots. -/
def ScanInv (f : Job → Int) (P : List Job) (res : Option (Nat × Job)) : Prop :=
  match res with
  | none => ∀ j ∈ P, 0 ≤ f j
  | some (k, v) =>
      P[k]? = some v ∧ f v < 0 ∧ (∀ j ∈ P, f v ≤ f j) ∧
      (∀ j ∈ P, f j = f v → j.arrivalTime ≤ v.arrivalTime)

theorem preemptLoop_go (f : Job → Int) :
    ∀ (rest : List (Option Job)) (P : List Job) (curr : Int)
      (chosen : Option (Nat × Job)),
      (∀ oj ∈ rest, oj.isSome) →
      ScanInv f P chosen →
      (chosen = none → curr = 0) →
      (∀ k v, chosen = some (k, v) → curr = f v) →
      ∃ res, preemptLoop f rest P.length curr chosen = some res ∧
        ScanInv f (P ++ rest.filterMap id) res := by
  intro rest
  induction rest with
  | nil =>
      intro P curr chosen _ hinv _ _
      exact ⟨chosen, rfl, by simpa using hinv⟩
  | cons oj rest' ih =>
      intro P curr chosen hall hinv hnone hsome
      cases oj with
      | none => exact absurd (hall none (List.mem_cons_self _ _)) (by simp)
      | some j =>
          have hall' : ∀ o ∈ rest', o.isSome := fun o h => hall o (List.mem_cons_of_mem _ h)
          have hPj : (P ++ [j])[P.length]? = some j := by
            rw [List.getElem?_append_right (le_refl _)]
            simp
          have hlen : P.length + 1 = (P ++ [j]).length := by simp
          by_cases hlt : f j < curr
          · -- new strict minimum at index `P.length`
            have hinv' : ScanInv f (P ++ [j]) (some (P.length, j)) := by
              refine ⟨hPj, ?_, ?_, ?_⟩
              · cases chosen with
                | none => have := hnone rfl; omega
                | some kv =>
                    obtain ⟨k, v⟩ := kv
                    have hc := hsome k v rfl
                    have := (hinv : ScanInv f P (some (k, v))).2.1
                    omega
              · intro p hp
                rcases List.mem_append.mp hp with hp | hp
                · cases chosen with
                  | none =>
                      have h0 := (hinv : ScanInv f P none) p hp
                      have := hnone rfl
                      omega
                  | some kv =>
                      obtain ⟨k, v⟩ := kv
                      have hc := hsome k v rfl
                      have := (hinv : ScanInv f P (some (k, v))).2.2.1 p hp
                      omega
                · simp at hp
                  subst hp
                  omega
              · intro p hp hfp
                rcases List.mem_append.mp hp with hp | hp
                · cases chosen with
                  | none =>
                      have h0 := (hinv : ScanInv f P none) p hp
                      have := hnone rfl
                      omega
                  | some kv =>
                      obtain ⟨k, v⟩ := kv
                      have hc := hsome k v rfl
                      have := (hinv : ScanInv f P (some (k, v))).2.2.1 p hp
                      omega
                · simp at hp
                  subst hp
                  exact le_refl _
            obtain ⟨res, hres, hresinv⟩ :=
              ih (P ++ [j]) (f j) (some (P.length, j)) hall' hinv'
                (by intro h; cases h) (by intro k v h; cases h; rfl)
            rw [← hlen] at hres
            refine ⟨res, ?_, ?_⟩
            · simpa [preemptLoop, hlt] using hres
            · simpa using hresinv
          · by_cases heq : f j = curr
            · cases chosen with
              | none =>
                  have hc0 := hnone rfl
                  have hinv' : ScanInv f (P ++ [j]) none := by
                    intro p hp
                    rcases List.mem_append.mp hp with hp | hp
                    · exact (hinv : ScanInv f P none) p hp
                    · simp at hp
                      subst hp
                      omega
                  obtain ⟨res, hres, hresinv⟩ :=
                    ih (P ++ [j]) curr none hall' hinv' (fun _ => hc0)
                      (by intro k v h; cases h)
                  rw [← hlen] at hres
                  refine ⟨res, ?_, ?_⟩
                  · simpa [preemptLoop, hlt, heq] using hres
                  · simpa using hresinv
              | some kv =>
                  obtain ⟨k, v⟩ := kv
                  obtain ⟨hkv, hfv, hmin, htie⟩ := (hinv : ScanInv f P (some (k, v)))
                  have hc := hsome k v rfl
                  by_cases harr : v.arrivalTime < j.arrivalTime
                  · -- tie goes to the later arrival `j`
                    have hinv' : ScanInv f (P ++ [j]) (some (P.length, j)) := by
                      refine ⟨hPj, by omega, ?_, ?_⟩
                      · intro p hp
                        rcases List.mem_append.mp hp with hp | hp
                        · have := hmin p hp
                          omega
                        · simp at hp
                          subst hp
                          exact le_refl _
                      · intro p hp hfp
                        rcases List.mem_append.mp hp with hp | hp
                        · have := htie p hp (by omega)
                          omega
                        · simp at hp
                          subst hp
                          exact le_refl _
                    obtain ⟨res, hres, hresinv⟩ :=
                      ih (P ++ [j]) curr (some (P.length, j)) hall' hinv'
                        (by intro h; cases h) (by intro a b h; cases h; omega)
                    rw [← hlen] at hres
                    refine ⟨res, ?_, ?_⟩
                    · simpa [preemptLoop, hlt, heq, harr] using hres
                    · simpa using hresinv
                  · -- tie kept on the incumbent
                    have hinv' : ScanInv f (P ++ [j]) (some (k, v)) := by
                      refine ⟨?_, hfv, ?_, ?_⟩
                      · have hklen : k < P.length := by
                          obtain ⟨h, -⟩ := List.getElem?_eq_some_iff.mp hkv
                          exact h
                        rw [List.getElem?_append_left hklen]
                        exact hkv
                      · intro p hp
                        rcases List.mem_append.mp hp with hp | hp
                        · exact hmin p hp
                        · simp at hp
                          subst hp
                          omega
                      · intro p hp hfp
                        rcases List.mem_append.mp hp with hp | hp
                        · exact htie p hp hfp
                        · simp at hp
                          subst hp
                          omega
                    obtain ⟨res, hres, hresinv⟩ :=
                      ih (P ++ [j]) curr (some (k, v)) hall' hinv'
                        (by intro h; cases h) (by intro a b h; cases h; exact hc)
                    rw [← hlen] at hres
                    refine ⟨res, ?_, ?_⟩
                    · simpa [preemptLoop, hlt, heq, harr] using hres
                    · simpa using hresinv
            · -- `f j > curr`: slot skipped
              have hinv' : ScanInv f (P ++ [j]) chosen := by
                cases chosen with
                | none =>
                    intro p hp
                    rcases List.mem_append.mp hp with hp | hp
                    · exact (hinv : ScanInv f P none) p hp
                    · simp at hp
                      subst hp
                      have := hnone rfl
                      omega
                | some kv =>
                    obtain ⟨k, v⟩ := kv
                    obtain ⟨hkv, hfv, hmin, htie⟩ := (hinv : ScanInv f P (some (k, v)))
                    have hc := hsome k v rfl
                    refine ⟨?_, hfv, ?_, ?_⟩
                    · have hklen : k < P.length := by
                        obtain ⟨h, -⟩ := List.getElem?_eq_some_iff.mp hkv
                        exact h
                      rw [List.getElem?_append_left hklen]
                      exact hkv
                    · intro p hp
                      rcases List.mem_append.mp hp with hp | hp
                      · exact hmin p hp
                      · simp at hp
                        subst hp
                        omega
                    · intro p hp hfp
                      rcases List.mem_append.mp hp with hp | hp
                      · exact htie p hp hfp
                      · simp at hp
                        subst hp
                        omega
              obtain ⟨res, hres, hresinv⟩ :=
                ih (P ++ [j]) curr chosen hall' hinv' hnone hsome
              rw [← hlen] at hres
              refine ⟨res, ?_, ?_⟩
              · simpa [preemptLoop, hlt, heq] using hres
              · simpa using hresinv

theorem compare_flip_pos (sch : Scheme) (a b : Job) :
    0 < compare sch a b ↔ compare sch b a < 0 := by
  have := compare_antisymm sch a b
  omega

/-- For PSJF and PPRI, a strictly-worse comparison against a candidate
that arrived after the occupant is literally the key difference. -/
theorem compare_worse_eq_key (sch : Scheme)
    (hsch : sch = Scheme.PSJF ∨ sch = Scheme.PPRI) (cand j : Job)
    (harr : j.arrivalTime < cand.arrivalTime)
    (hw : compare sch cand j < 0) :
    compare sch cand j = schemeKey sch cand - schemeKey sch j := by
  rcases hsch with rfl | rfl <;> simp only [compare, schemeKey] at * <;>
    split_ifs at * <;> omega

/-- C1: whenever `scheduler_new_job` runs under PSJF or PPRI with every
core busy and all occupants arrived strictly before the candidate, either
the returned core's occupant compares strictly greater than the candidate
and has the largest key — ties among equally-keyed worse occupants broken
by latest arrival — and the candidate displaces it onto that core while
the victim re-enters the ready queue, or no occupant compares strictly
greater, `-1` is returned, no core changes, and the candidate is enqueued
instead. -/
theorem c1_preempt_victim (s : SchedState) (jn time rt pr : Int)
    (hsch : s.scheme = Scheme.PSJF ∨ s.scheme = Scheme.PPRI)
    (hbusy : ∀ oj ∈ s.cores, oj.isSome)
    (harr : ∀ j ∈ s.cores.filterMap id, j.arrivalTime < time) :
    ∃ r s', scheduler_new_job s jn time rt pr = some (r, s') ∧
      ((∃ (k : Nat) (v : Job),
          ((cpuUpdateTime s time).cores.filterMap id)[k]? = some v ∧
          r = (k : Int) ∧
          0 < compare s.scheme v (newJob jn time rt pr) ∧
          (∀ j ∈ (cpuUpdateTime s time).cores.filterMap id,
            0 < compare s.scheme j (newJob jn time rt pr) →
              schemeKey s.scheme j ≤ schemeKey s.scheme v ∧
              (schemeKey s.scheme j = schemeKey s.scheme v →
                j.arrivalTime ≤ v.arrivalTime)) ∧
          s'.cores[k]? = some (some { newJob jn time rt pr with lastTime := time }) ∧
          { v with lastTime := -1 } ∈ s'.queue)
       ∨ (r = -1 ∧
          (∀ j ∈ (cpuUpdateTime s time).cores.filterMap id,
            ¬ 0 < compare s.scheme j (newJob jn time rt pr)) ∧
          newJob jn time rt pr ∈ s'.queue ∧
          s'.cores = (cpuUpdateTime s time).cores)) := by
  have hbusyu : ∀ oj ∈ (cpuUpdateTime s time).cores, oj.isSome := by
    intro oj hoj
    rw [cpuUpdateTime_cores] at hoj
    obtain ⟨o, ho, rfl⟩ := List.mem_map.mp hoj
    cases o with
    | none => exact absurd (hbusy none ho) (by simp)
    | some a => simp
  have havail : cpuCoresAvailable (cpuUpdateTime s time).cores = -1 :=
    (firstIdleFrom_eq_neg_iff _ 0).mpr hbusyu
  have harru : ∀ j ∈ (cpuUpdateTime s time).cores.filterMap id, j.arrivalTime < time := by
    intro j hj
    rw [cpuUpdateTime_cores, filterMap_id_map_optionMap] at hj
    obtain ⟨j0, hj0, rfl⟩ := List.mem_map.mp hj
    rw [jobTick_arrivalTime]
    exact harr j0 hj0
  obtain ⟨res, hres, hresinv⟩ :=
    preemptLoop_go (fun j => compare s.scheme (newJob jn time rt pr) j)
      (cpuUpdateTime s time).cores [] 0 none hbusyu (by intro j h; cases h)
      (fun _ => rfl) (by intro k v h; cases h)
  rw [List.nil_append] at hresinv
  rw [List.length_nil] at hres
  simp only [ScanInv] at hresinv
  have hworse_iff : ∀ j : Job,
      (0 < compare s.scheme j (newJob jn time rt pr) ↔
        compare s.scheme (newJob jn time rt pr) j < 0) :=
    fun j => compare_flip_pos s.scheme j (newJob jn time rt pr)
  cases res with
  | none =>
      have hpre : cpuCorePreempt (cpuUpdateTime s time) (newJob jn time rt pr)
          = some (-1, cpuUpdateTime s time) := by
        simp [cpuCorePreempt, havail, cpuUpdateTime_scheme, hres]
      have hof := priqueue_offer_eq (compare s.scheme)
        (cpuUpdateTime s time).queue (newJob jn time rt pr)
      have hrun : scheduler_new_job s jn time rt pr =
          some (-1, { cpuUpdateTime s time with
            queue := (cpuUpdateTime s time).queue.take
                (offerPos (compare s.scheme) (newJob jn time rt pr)
                  (cpuUpdateTime s time).queue) ++
              newJob jn time rt pr ::
              (cpuUpdateTime s time).queue.drop
                (offerPos (compare s.scheme) (newJob jn time rt pr)
                  (cpuUpdateTime s time).queue) }) := by
        rcases hsch with h | h <;>
          (rw [h] at hof
           simp [scheduler_new_job, havail, cpuUpdateTime_scheme, h, hpre, hof])
      refine ⟨-1, _, hrun, Or.inr ⟨rfl, ?_, ?_, rfl⟩⟩
      · intro j hj hw
        have hge : ∀ p ∈ (cpuUpdateTime s time).cores.filterMap id,
            0 ≤ compare s.scheme (newJob jn time rt pr) p := hresinv
        have := hge j hj
        rw [hworse_iff j] at hw
        omega
      · simp [List.mem_append]
  | some kv =>
      obtain ⟨k, v⟩ := kv
      obtain ⟨hkv, hfv, hmin, htie⟩ := hresinv
      have hukv : (cpuUpdateTime s time).cores[k]? = some (some v) :=
        (getElem?_filterMap_id_all_some _ hbusyu k v).mp hkv
      obtain ⟨hklen, -⟩ := List.getElem?_eq_some_iff.mp hukv
      have hvmem : v ∈ (cpuUpdateTime s time).cores.filterMap id := List.getElem?_mem hkv
      have h1 : ¬((k : Int) < 0) := by omega
      have h2 : ¬(((cpuUpdateTime s time).cores.length : Int) ≤ (k : Int)) := by omega
      have hof := priqueue_offer_eq (compare s.scheme)
        (cpuUpdateTime s time).queue { v with lastTime := -1 }
      have hrm : cpuCoreRemoveJob (cpuUpdateTime s time) (k : Int) v.jobNumber =
          some ({ v with lastTime := -1 },
            { cpuUpdateTime s time with
              cores := (cpuUpdateTime s time).cores.set k none,
              queue := (cpuUpdateTime s time).queue.take
                  (offerPos (compare s.scheme) { v with lastTime := -1 }
                    (cpuUpdateTime s time).queue) ++
                { v with lastTime := -1 } ::
                (cpuUpdateTime s time).queue.drop
                  (offerPos (compare s.scheme) { v with lastTime := -1 }
                    (cpuUpdateTime s time).queue) }) := by
        simp [cpuCoreRemoveJob, h1, h2, Int.toNat_natCast, hukv,
          cpuUpdateTime_scheme, hof]
      have hset : ((cpuUpdateTime s time).cores.set k none)[k]? = some none :=
        List.getElem?_set_self (by simpa using hklen)
      have hkne : ((k : Int)) ≠ -1 := by omega
      have hpre : cpuCorePreempt (cpuUpdateTime s time) (newJob jn time rt pr)
          = some ((k : Int),
            { cpuUpdateTime s time with
              cores := ((cpuUpdateTime s time).cores.set k none).set k
                (some { newJob jn time rt pr with lastTime := time }),
              queue := (cpuUpdateTime s time).queue.take
                  (offerPos (compare s.scheme) { v with lastTime := -1 }
                    (cpuUpdateTime s time).queue) ++
                { v with lastTime := -1 } ::
                (cpuUpdateTime s time).queue.drop
                  (offerPos (compare s.scheme) { v with lastTime := -1 }
                    (cpuUpdateTime s time).queue) }) := by
        simp [cpuCorePreempt, havail, cpuUpdateTime_scheme, hres, hrm,
          Int.toNat_natCast, cpuCoreAssignJob, hset, cpuUpdateTime_currentTime]
      have hrun : scheduler_new_job s jn time rt pr =
          some ((k : Int),
            { cpuUpdateTime s time with
              cores := ((cpuUpdateTime s time).cores.set k none).set k
                (some { newJob jn time rt pr with lastTime := time }),
              queue := (cpuUpdateTime s time).queue.take
                  (offerPos (compare s.scheme) { v with lastTime := -1 }
                    (cpuUpdateTime s time).queue) ++
                { v with lastTime := -1 } ::
                (cpuUpdateTime s time).queue.drop
                  (offerPos (compare s.scheme) { v with lastTime := -1 }
                    (cpuUpdateTime s time).queue) }) := by
        rcases hsch with h | h <;>
          simp [scheduler_new_job, havail, cpuUpdateTime_scheme, h, hpre, hkne]
      refine ⟨(k : Int), _, hrun, Or.inl ⟨k, v, hkv, rfl, ?_, ?_, ?_, ?_⟩⟩
      · rw [hworse_iff v]
        exact hfv
      · intro j hj hw
        rw [hworse_iff j] at hw
        have hje := compare_worse_eq_key s.scheme hsch (newJob jn time rt pr) j
          (harru j hj) hw
        have hve := compare_worse_eq_key s.scheme hsch (newJob jn time rt pr) v
          (harru v hvmem) hfv
        have hm := hmin j hj
        constructor
        · omega
        · intro hkey
          exact htie j hj (by omega)
      · simp only []
        rw [List.getElem?_set_self (by simpa using hklen)]
      · simp [List.mem_append]

theorem c1_preempt_victim_witness :
    ∃ r s', scheduler_new_job
        { scheme := Scheme.PSJF, queue := [],
          cores := [some { jA with lastTime := 0 }, some { jB with lastTime := 1 }],
          currentTime := 1, totalWaitTime := 0, numWaiting := 0,
          totalRespTime := 0, numResponse := 0, totalTurnAroundTime := 0,
          numTurnAround := 0, finishedIds := [] } 9 2 1 0 = some (r, s') ∧
      ((∃ (k : Nat) (v : Job),
          ((cpuUpdateTime
            { scheme := Scheme.PSJF, queue := [],
              cores := [some { jA with lastTime := 0 }, some { jB with lastTime := 1 }],
              currentTime := 1, totalWaitTime := 0, numWaiting := 0,
              totalRespTime := 0, numResponse := 0, totalTurnAroundTime := 0,
              numTurnAround := 0, finishedIds := [] } 2).cores.filterMap id)[k]? = some v ∧
          r = (k : Int) ∧
          0 < compare Scheme.PSJF v (newJob 9 2 1 0) ∧
          (∀ j ∈ (cpuUpdateTime
            { scheme := Scheme.PSJF, queue := [],
              cores := [some { jA with lastTime := 0 }, some { jB with lastTime := 1 }],
              currentTime := 1, totalWaitTime := 0, numWaiting := 0,
              totalRespTime := 0, numResponse := 0, totalTurnAroundTime := 0,
              numTurnAround := 0, finishedIds := [] } 2).cores.filterMap id,
            0 < compare Scheme.PSJF j (newJob 9 2 1 0) →
              schemeKey Scheme.PSJF j ≤ schemeKey Scheme.PSJF v ∧
              (schemeKey Scheme.PSJF j = schemeKey Scheme.PSJF v →
                j.arrivalTime ≤ v.arrivalTime)) ∧
          s'.cores[k]? = some (some { newJob 9 2 1 0 with lastTime := 2 }) ∧
          { v with lastTime := -1 } ∈ s'.queue)
       ∨ (r = -1 ∧
          (∀ j ∈ (cpuUpdateTime
            { scheme := Scheme.PSJF, queue := [],
              cores := [some { jA with lastTime := 0 }, some { jB with lastTime := 1 }],
              currentTime := 1, totalWaitTime := 0, numWaiting := 0,
              totalRespTime := 0, numResponse := 0, totalTurnAroundTime := 0,
              numTurnAround := 0, finishedIds := [] } 2).cores.filterMap id,
            ¬ 0 < compare Scheme.PSJF j (newJob 9 2 1 0)) ∧
          newJob 9 2 1 0 ∈ s'.queue ∧
          s'.cores = (cpuUpdateTime
            { scheme := Scheme.PSJF, queue := [],
              cores := [some { jA with lastTime := 0 }, some { jB with lastTime := 1 }],
              currentTime := 1, totalWaitTime := 0, numWaiting := 0,
              totalRespTime := 0, numResponse := 0, totalTurnAroundTime := 0,
              numTurnAround := 0, finishedIds := [] } 2).cores)) :=
  c1_preempt_victim
    { scheme := Scheme.PSJF, queue := [],
      cores := [some { jA with lastTime := 0 }, some { jB with lastTime := 1 }],
      currentTime := 1, totalWaitTime := 0, numWaiting := 0,
      totalRespTime := 0, numResponse := 0, totalTurnAroundTime := 0,
      numTurnAround := 0, finishedIds := [] } 9 2 1 0 (Or.inl rfl)
    (by decide) (by decide)

theorem c5_first_dispatch_witness :
    ((cpuUpdateTime
        { scheme := Scheme.FCFS, queue := [], cores := [some jB],
          currentTime := 1, totalWaitTime := 0, numWaiting := 0,
          totalRespTime := 0, numResponse := 0, totalTurnAroundTime := 0,
          numTurnAround := 0, finishedIds := [] } 4).cores[0]?
      = some (some (jobTick 4 jB).1)) ∧
    ((jB.initTime = -1 ∧ jB.lastTime < 4) →
      (jobTick 4 jB).1.initTime = jB.lastTime ∧
      (jobTick 4 jB).1.initTime ≠ -1 ∧
      (jobTick 4 jB).2.1 = jB.lastTime - jB.arrivalTime ∧
      (jobTick 4 jB).2.2 = 1) ∧
    (¬(jB.initTime = -1 ∧ jB.lastTime < 4) →
      (jobTick 4 jB).1.initTime = jB.initTime ∧
      (jobTick 4 jB).2.1 = 0 ∧ (jobTick 4 jB).2.2 = 0) ∧
    (jB.initTime ≠ -1 → (jobTick 4 jB).1.initTime = jB.initTime) ∧
    (jB.lastTime = 4 → (jobTick 4 jB).2.2 = 0) ∧
    (cpuUpdateTime
        { scheme := Scheme.FCFS, queue := [], cores := [some jB],
          currentTime := 1, totalWaitTime := 0, numWaiting := 0,
          totalRespTime := 0, numResponse := 0, totalTurnAroundTime := 0,
          numTurnAround := 0, finishedIds := [] } 4).totalRespTime =
      0 + (([some jB].filterMap id).map (fun k => (jobTick 4 k).2.1)).sum ∧
    (cpuUpdateTime
        { scheme := Scheme.FCFS, queue := [], cores := [some jB],
          currentTime := 1, totalWaitTime := 0, numWaiting := 0,
          totalRespTime := 0, numResponse := 0, totalTurnAroundTime := 0,
          numTurnAround := 0, finishedIds := [] } 4).numResponse =
      0 + (([some jB].filterMap id).map (fun k => (jobTick 4 k).2.2)).sum :=
  c5_first_dispatch
    { scheme := Scheme.FCFS, queue := [], cores := [some jB],
      currentTime := 1, totalWaitTime := 0, numWaiting := 0,
      totalRespTime := 0, numResponse := 0, totalTurnAroundTime := 0,
      numTurnAround := 0, finishedIds := [] } 4 0 jB rfl (by decide) (by decide)

/-! ### The single-container invariant

`liveJobs` is everything the engine currently owns: the ready queue plus
the occupants of the cores.  `WF` is the system invariant maintained by
every valid event: distinct identities across the containers, finished
ids gone from both containers, and the per-job timing facts needed for
the accounting inequalities. -/

/-- The jobs occupying cores, in core order. -/
def coresJobs (l : List (Option Job)) : List Job := l.filterMap id

/-- All jobs currently owned by the scheduler. -/
def liveJobs (s : SchedState) : List Job := s.queue ++ coresJobs s.cores

/-- Their identities. -/
def liveIds (s : SchedState) : List Int := (liveJobs s).map Job.jobNumber

/-- What holds of a job sitting in the ready queue at clock `now`:
not-running sentinel, service received bounded by the clock, and the
first-dispatch bookkeeping consistent. -/
def JobQueuedOK (now : Int) (j : Job) : Prop :=
  j.lastTime = -1 ∧ j.remainingTime ≤ j.runTime ∧
  j.arrivalTime + (j.runTime - j.remainingTime) ≤ now ∧
  (j.initTime = -1 → j.remainingTime = j.runTime) ∧
  (j.initTime ≠ -1 → j.arrivalTime ≤ j.initTime ∧
    j.initTime + (j.runTime - j.remainingTime) ≤ now)

/-- What holds of a job occupying a core at clock `now`: it was placed at
some instant `lastTime ∈ [0, now]` and its service up to that placement is
consistent with arrival and first dispatch. -/
def JobRunningOK (now : Int) (j : Job) : Prop :=
  0 ≤ j.lastTime ∧ j.lastTime ≤ now ∧ j.remainingTime ≤ j.runTime ∧
  j.arrivalTime + (j.runTime - j.remainingTime) ≤ j.lastTime ∧
  (j.initTime = -1 → j.remainingTime = j.runTime) ∧
  (j.initTime ≠ -1 → j.arrivalTime ≤ j.initTime ∧
    j.initTime + (j.runTime - j.remainingTime) ≤ j.lastTime)

/-- The system invariant. -/
structure WF (s : SchedState) : Prop where
  time0 : 0 ≤ s.currentTime
  nodup : (liveIds s).Nodup
  fin : ∀ n ∈ s.finishedIds, n ∉ liveIds s
  qok : ∀ j ∈ s.queue, JobQueuedOK s.currentTime j
  cok : ∀ j : Job, some j ∈ s.cores → JobRunningOK s.currentTime j

theorem queuedOK_mono {now t : Int} {j : Job} (h : JobQueuedOK now j)
    (hle : now ≤ t) : JobQueuedOK t j := by
  simp only [JobQueuedOK] at *
  omega

theorem newJob_queuedOK (jn time rt pr : Int) :
    JobQueuedOK time (newJob jn time rt pr) :=
  ⟨rfl, le_refl rt, by show time + (rt - rt) ≤ time; omega,
   fun _ => rfl, fun hi => absurd rfl hi⟩

theorem runningOK_release {now : Int} {j : Job} (h : JobRunningOK now j) :
    JobQueuedOK now { j with lastTime := -1 } := by
  obtain ⟨h1, h2, h3, h4, h5, h6⟩ := h
  exact ⟨rfl, h3, by dsimp only; omega, fun hi => h5 hi,
    fun hi => ⟨(h6 hi).1, by have := (h6 hi).2; dsimp only; omega⟩⟩

theorem queuedOK_dispatch {now : Int} {j : Job} (h : JobQueuedOK now j)
    (h0 : 0 ≤ now) : JobRunningOK now { j with lastTime := now } := by
  obtain ⟨h1, h2, h3, h4, h5⟩ := h
  exact ⟨h0, le_refl now, h2, h3, fun hi => h4 hi,
    fun hi => ⟨(h5 hi).1, (h5 hi).2⟩⟩

theorem jobTick_runningOK {now : Int} (t : Int) (j : Job)
    (h : JobRunningOK now j) (hle : now ≤ t) :
    JobRunningOK t (jobTick t j).1 := by
  simp only [JobRunningOK, jobTick] at *
  split_ifs with hc <;> dsimp only <;> omega

/-! ### Moving jobs between the containers, as permutations -/

theorem coresJobs_set_none :
    ∀ (l : List (Option Job)) (i : Nat) (v : Job), l[i]? = some (some v) →
      List.Perm (coresJobs l) (v :: coresJobs (l.set i none)) := by
  intro l
  induction l with
  | nil => simp
  | cons o rest ih =>
      intro i v h
      cases i with
      | zero =>
          simp only [List.getElem?_cons_zero, Option.some.injEq] at h
          subst h
          simp [coresJobs]
      | succ m =>
          simp only [List.getElem?_cons_succ] at h
          have := ih m v h
          cases o with
          | none => simpa [coresJobs] using this
          | some a =>
              simp only [coresJobs, List.filterMap_cons] at *
              simpa [List.set_cons_succ] using
                ((this.cons a).trans (List.Perm.swap v a _))

theorem coresJobs_set_some :
    ∀ (l : List (Option Job)) (i : Nat) (x : Job), l[i]? = some none →
      List.Perm (coresJobs (l.set i (some x))) (x :: coresJobs l) := by
  intro l
  induction l with
  | nil => simp
  | cons o rest ih =>
      intro i x h
      cases i with
      | zero =>
          simp only [List.getElem?_cons_zero, Option.some.injEq] at h
          subst h
          simp [coresJobs]
      | succ m =>
          simp only [List.getElem?_cons_succ] at h
          have := ih m x h
          cases o with
          | none => simpa [coresJobs] using this
          | some a =>
              simp only [coresJobs, List.filterMap_cons] at *
              simpa [List.set_cons_succ] using
                ((this.cons a).trans (List.Perm.swap x a _))

theorem mem_coresJobs {l : List (Option Job)} {j : Job} :
    j ∈ coresJobs l ↔ some j ∈ l := by
  simp [coresJobs, List.mem_filterMap]

theorem liveJobs_update (s : SchedState) (t : Int) :
    liveJobs (cpuUpdateTime s t) =
      s.queue ++ (coresJobs s.cores).map (fun j => (jobTick t j).1) := by
  unfold liveJobs coresJobs
  rw [cpuUpdateTime_queue, cpuUpdateTime_cores, filterMap_id_map_optionMap]

theorem liveIds_update (s : SchedState) (t : Int) :
    liveIds (cpuUpdateTime s t) = liveIds s := by
  unfold liveIds
  rw [liveJobs_update]
  unfold liveJobs
  rw [List.map_append, List.map_append, List.map_map]
  congr 1
  exact List.map_congr_left fun j _ => jobTick_jobNumber t j

theorem WF_update {s : SchedState} (t : Int) (h : WF s)
    (hle : s.currentTime ≤ t) : WF (cpuUpdateTime s t) := by
  refine ⟨?_, ?_, ?_, ?_, ?_⟩
  · rw [cpuUpdateTime_currentTime]
    have := h.time0
    omega
  · rw [liveIds_update]
    exact h.nodup
  · intro n hn
    rw [liveIds_update]
    exact h.fin n hn
  · intro j hj
    rw [cpuUpdateTime_queue] at hj
    rw [cpuUpdateTime_currentTime]
    exact queuedOK_mono (h.qok j hj) hle
  · intro j hj
    rw [cpuUpdateTime_cores] at hj
    rw [cpuUpdateTime_currentTime]
    obtain ⟨o, ho, heq⟩ := List.mem_map.mp hj
    cases o with
    | none => simp at heq
    | some a =>
        simp only [Option.map_some'] at heq
        obtain rfl : (jobTick t a).1 = j := Option.some.inj heq
        exact jobTick_runningOK t a (h.cok a ho) hle

theorem firstIdleFrom_found :
    ∀ (l : List (Option Job)) (b : Nat), firstIdleFrom l b ≠ -1 →
      ∃ i : Nat, firstIdleFrom l b = ((b + i : Nat) : Int) ∧ l[i]? = some none := by
  intro l
  induction l with
  | nil =>
      intro b hb
      simp [firstIdleFrom] at hb
  | cons o rest ih =>
      intro b hb
      cases o with
      | none =>
          refine ⟨0, ?_, by simp⟩
          simp [firstIdleFrom]
      | some a =>
          obtain ⟨i, hi, hg⟩ := ih (b + 1) (by simpa [firstIdleFrom] using hb)
          refine ⟨i + 1, ?_, by simpa using hg⟩
          show firstIdleFrom (some a :: rest) b = _
          rw [firstIdleFrom, hi]
          congr 1
          omega

theorem cpuCoresAvailable_found {l : List (Option Job)}
    (h : cpuCoresAvailable l ≠ -1) :
    ∃ i : Nat, cpuCoresAvailable l = (i : Int) ∧ l[i]? = some none := by
  obtain ⟨i, hi, hg⟩ := firstIdleFrom_found l 0 h
  refine ⟨i, ?_, hg⟩
  simpa using hi

theorem cpuCoreAssignJob_eq {s : SchedState} {i : Nat} (job : Job)
    (hslot : s.cores[i]? = some none) :
    cpuCoreAssignJob s i job =
      some { s with
        cores := s.cores.set i (some { job with lastTime := s.currentTime }) } := by
  simp [cpuCoreAssignJob, hslot]

theorem cpuCoreRemoveJob_eq {s : SchedState} {cid : Nat} {j : Job}
    (hcore : s.cores[cid]? = some (some j)) {jn : Int} (hjn : j.jobNumber = jn) :
    cpuCoreRemoveJob s (cid : Int) jn =
      some ({ j with lastTime := -1 },
        { s with
          cores := s.cores.set cid none,
          queue := s.queue.take
              (offerPos (compare s.scheme) { j with lastTime := -1 } s.queue) ++
            { j with lastTime := -1 } ::
            s.queue.drop
              (offerPos (compare s.scheme) { j with lastTime := -1 } s.queue) }) := by
  subst hjn
  obtain ⟨hlen, -⟩ := List.getElem?_eq_some_iff.mp hcore
  have h1 : ¬((cid : Int) < 0) := by omega
  have h2 : ¬((s.cores.length : Int) ≤ (cid : Int)) := by omega
  have hof := priqueue_offer_eq (compare s.scheme) s.queue { j with lastTime := -1 }
  simp [cpuCoreRemoveJob, h1, h2, Int.toNat_natCast, hcore, hof]

theorem liveJobs_core_split {s : SchedState} {cid : Nat} {j : Job}
    (hcore : s.cores[cid]? = some (some j)) :
    List.Perm (liveJobs s) (j :: (s.queue ++ coresJobs (s.cores.set cid none))) :=
  ((coresJobs_set_none s.cores cid j hcore).append_left s.queue).trans List.perm_middle

theorem queue_insert_perm (q : List Job) (x : Job) (p : Nat) :
    List.Perm (q.take p ++ x :: q.drop p) (x :: q) := by
  have h1 : List.Perm (q.take p ++ x :: q.drop p) (x :: (q.take p ++ q.drop p)) :=
    List.perm_middle
  rwa [List.take_append_drop] at h1

theorem WF_remove {s : SchedState} {cid : Nat} {j : Job} (p : Nat) (h : WF s)
    (hcore : s.cores[cid]? = some (some j)) :
    WF { s with
      cores := s.cores.set cid none,
      queue := s.queue.take p ++ { j with lastTime := -1 } :: s.queue.drop p } := by
  have hq1 : List.Perm
      (s.queue.take p ++ { j with lastTime := -1 } :: s.queue.drop p)
      ({ j with lastTime := -1 } :: s.queue) := queue_insert_perm s.queue _ p
  have hlive : List.Perm
      (liveJobs { s with
        cores := s.cores.set cid none,
        queue := s.queue.take p ++ { j with lastTime := -1 } :: s.queue.drop p })
      ({ j with lastTime := -1 } :: (s.queue ++ coresJobs (s.cores.set cid none))) := by
    have := hq1.append_right (coresJobs (s.cores.set cid none))
    simpa [liveJobs] using this
  have hids : List.Perm
      (liveIds { s with
        cores := s.cores.set cid none,
        queue := s.queue.take p ++ { j with lastTime := -1 } :: s.queue.drop p })
      (liveIds s) := by
    have h1 := hlive.map Job.jobNumber
    have h2 := (liveJobs_core_split hcore).map Job.jobNumber
    exact h1.trans h2.symm
  refine ⟨h.time0, ?_, ?_, ?_, ?_⟩
  · exact hids.nodup_iff.mpr h.nodup
  · intro n hn
    intro hmem
    exact h.fin n hn (hids.subset hmem)
  · intro x hx
    rcases List.mem_cons.mp (hq1.subset hx) with rfl | hx'
    · exact runningOK_release (h.cok j (List.getElem?_mem hcore))
    · exact h.qok x hx'
  · intro x hx
    rcases List.mem_or_eq_of_mem_set hx with hx' | hx'
    · exact h.cok x hx'
    · cases hx'

theorem WF_assign {s : SchedState} {i : Nat} {job : Job} (h : WF s)
    (hslot : s.cores[i]? = some none) (hq : JobQueuedOK s.currentTime job)
    (hfresh : job.jobNumber ∉ liveIds s) (hfin : job.jobNumber ∉ s.finishedIds) :
    WF { s with
      cores := s.cores.set i (some { job with lastTime := s.currentTime }) } := by
  have hlive : List.Perm
      (liveJobs { s with
        cores := s.cores.set i (some { job with lastTime := s.currentTime }) })
      ({ job with lastTime := s.currentTime } :: liveJobs s) := by
    have hp := coresJobs_set_some s.cores i { job with lastTime := s.currentTime } hslot
    exact (hp.append_left s.queue).trans List.perm_middle
  have hids := hlive.map Job.jobNumber
  refine ⟨h.time0, ?_, ?_, ?_, ?_⟩
  · refine hids.nodup_iff.mpr ?_
    exact List.Nodup.cons hfresh h.nodup
  · intro n hn hmem
    rcases List.mem_cons.mp (hids.subset hmem) with rfl | hmem'
    · exact hfin hn
    · exact h.fin n hn hmem'
  · exact h.qok
  · intro x hx
    rcases List.mem_or_eq_of_mem_set hx with hx' | hx'
    · exact h.cok x hx'
    · obtain rfl : { job with lastTime := s.currentTime } = x := Option.some.inj hx'.symm
      exact queuedOK_dispatch hq h.time0

theorem WF_enqueue {s : SchedState} {job : Job} (p : Nat) (h : WF s)
    (hq : JobQueuedOK s.currentTime job) (hfresh : job.jobNumber ∉ liveIds s)
    (hfin : job.jobNumber ∉ s.finishedIds) :
    WF { s with queue := s.queue.take p ++ job :: s.queue.drop p } := by
  have hq1 : List.Perm (s.queue.take p ++ job :: s.queue.drop p) (job :: s.queue) :=
    queue_insert_perm s.queue job p
  have hlive : List.Perm
      (liveJobs { s with queue := s.queue.take p ++ job :: s.queue.drop p })
      (job :: liveJobs s) := by
    have := hq1.append_right (coresJobs s.cores)
    simpa [liveJobs] using this
  have hids := hlive.map Job.jobNumber
  refine ⟨h.time0, ?_, ?_, ?_, ?_⟩
  · exact hids.nodup_iff.mpr (List.Nodup.cons hfresh h.nodup)
  · intro n hn hmem
    rcases List.mem_cons.mp (hids.subset hmem) with rfl | hmem'
    · exact hfin hn
    · exact h.fin n hn hmem'
  · intro x hx
    rcases List.mem_cons.mp (hq1.subset hx) with rfl | hx'
    · exact hq
    · exact h.qok x hx'
  · exact h.cok

theorem WF_pop_parts {s : SchedState} {hq : Job} {tq : List Job} (h : WF s)
    (hqueue : s.queue = hq :: tq) :
    WF { s with queue := tq } ∧ JobQueuedOK s.currentTime hq ∧
    hq.jobNumber ∉ liveIds { s with queue := tq } ∧
    hq.jobNumber ∉ s.finishedIds := by
  have hids : liveIds s = hq.jobNumber :: liveIds { s with queue := tq } := by
    simp [liveIds, liveJobs, hqueue]
  have hnd := h.nodup
  rw [hids] at hnd
  have hhd : hq.jobNumber ∉ liveIds { s with queue := tq } :=
    (List.nodup_cons.mp hnd).1
  refine ⟨⟨h.time0, (List.nodup_cons.mp hnd).2, ?_, ?_, h.cok⟩, ?_, hhd, ?_⟩
  · intro n hn hmem
    exact h.fin n hn (by rw [hids]; exact List.mem_cons_of_mem _ hmem)
  · intro x hx
    exact h.qok x (by rw [hqueue]; exact List.mem_cons_of_mem _ hx)
  · exact h.qok hq (by rw [hqueue]; exact List.mem_cons_self _ _)
  · intro hmem
    exact h.fin hq.jobNumber hmem (by rw [hids]; exact List.mem_cons_self _ _)

/-- A job on a core shares its id with no queued job. -/
theorem queue_core_distinct {s : SchedState} {cid : Nat} {j : Job} (h : WF s)
    (hcore : s.cores[cid]? = some (some j)) :
    ∀ a ∈ s.queue, a.jobNumber ≠ j.jobNumber := by
  intro a ha heq
  have hnd := h.nodup
  have hsplit : liveIds s =
      s.queue.map Job.jobNumber ++ (coresJobs s.cores).map Job.jobNumber := by
    simp [liveIds, liveJobs]
  rw [hsplit] at hnd
  have hdisj := (List.nodup_append.mp hnd).2.2
  have h1 : a.jobNumber ∈ s.queue.map Job.jobNumber := List.mem_map_of_mem _ ha
  have h2 : j.jobNumber ∈ (coresJobs s.cores).map Job.jobNumber :=
    List.mem_map_of_mem _ (mem_coresJobs.mpr (List.getElem?_mem hcore))
  rw [heq] at h1
  exact hdisj h1 h2

/-- `priqueue_remove` by the identity of the job just offered back takes
the queue back to what it was. -/
theorem remove_offer_restore (q : List Job) (x : Job)
    (hx : ∀ a ∈ q, a.jobNumber ≠ x.jobNumber) (p : Nat) :
    (priqueue_remove (q.take p ++ x :: q.drop p)
      (fun a => a.jobNumber = x.jobNumber)).2 = q := by
  have ht : ∀ a ∈ q.take p, a.jobNumber ≠ x.jobNumber :=
    fun a ha => hx a (List.mem_of_mem_take ha)
  have hd : ∀ a ∈ q.drop p, a.jobNumber ≠ x.jobNumber :=
    fun a ha => hx a (List.mem_of_mem_drop ha)
  simp only [priqueue_remove, List.filter_append, List.filter_cons]
  rw [List.filter_eq_self.mpr (by intro a ha; simpa using ht a ha),
      List.filter_eq_self.mpr (by intro a ha; simpa using hd a ha)]
  simp [List.take_append_drop]

/-- The state reached by `scheduler_job_finished` just before it polls
the queue for a successor: clock advanced, the core cleared, the queue as
it was, statistics credited, the id recorded as finished. -/
def FinState (s : SchedState) (cid : Nat) (j : Job) (time : Int) : SchedState :=
  { cpuUpdateTime s time with
    cores := (cpuUpdateTime s time).cores.set cid none,
    queue := s.queue,
    totalWaitTime := s.totalWaitTime + (time - j.arrivalTime - j.runTime),
    numWaiting := s.numWaiting + 1,
    totalTurnAroundTime := s.totalTurnAroundTime + (time - j.arrivalTime),
    numTurnAround := s.numTurnAround + 1,
    finishedIds := j.jobNumber :: s.finishedIds }

theorem cores_update_getElem (s : SchedState) (t : Int) (i : Nat) {j : Job}
    (h : s.cores[i]? = some (some j)) :
    (cpuUpdateTime s t).cores[i]? = some (some (jobTick t j).1) := by
  rw [cpuUpdateTime_cores, List.getElem?_map, h]
  rfl

theorem cpuUpdateTime_totalWaitTime (s : SchedState) (t : Int) :
    (cpuUpdateTime s t).totalWaitTime = s.totalWaitTime := rfl

theorem cpuUpdateTime_numWaiting (s : SchedState) (t : Int) :
    (cpuUpdateTime s t).numWaiting = s.numWaiting := rfl

theorem cpuUpdateTime_totalTurnAroundTime (s : SchedState) (t : Int) :
    (cpuUpdateTime s t).totalTurnAroundTime = s.totalTurnAroundTime := rfl

theorem cpuUpdateTime_numTurnAround (s : SchedState) (t : Int) :
    (cpuUpdateTime s t).numTurnAround = s.numTurnAround := rfl

theorem cpuUpdateTime_finishedIds (s : SchedState) (t : Int) :
    (cpuUpdateTime s t).finishedIds = s.finishedIds := rfl

theorem scheduler_job_finished_eq {s : SchedState} {cid : Nat} {j : Job}
    (time : Int) (hcore : s.cores[cid]? = some (some j))
    (hqids : ∀ a ∈ s.queue, a.jobNumber ≠ j.jobNumber) :
    (s.queue = [] →
      scheduler_job_finished s (cid : Int) j.jobNumber time =
        some (-1, FinState s cid j time)) ∧
    (∀ hq tq, s.queue = hq :: tq →
      scheduler_job_finished s (cid : Int) j.jobNumber time =
        some (hq.jobNumber,
          { FinState s cid j time with
            queue := tq,
            cores := ((cpuUpdateTime s time).cores.set cid none).set cid
              (some { hq with lastTime := time }) })) := by
  have hcoreu := cores_update_getElem s time cid hcore
  have hrm := cpuCoreRemoveJob_eq (s := cpuUpdateTime s time) hcoreu
    (jobTick_jobNumber time j)
  have hrest := remove_offer_restore (cpuUpdateTime s time).queue
    { (jobTick time j).1 with lastTime := -1 }
    (by
      intro a ha heq
      exact hqids a ha (heq.trans (jobTick_jobNumber time j)))
    (offerPos (compare (cpuUpdateTime s time).scheme)
      { (jobTick time j).1 with lastTime := -1 } (cpuUpdateTime s time).queue)
  dsimp only at hrest
  constructor
  · intro hsq
    simp only [scheduler_job_finished, hrm]
    rw [hrest]
    rw [cpuUpdateTime_queue]
    rw [hsq]
    simp only [priqueue_poll]
    simp [FinState, jobTick_arrivalTime, jobTick_runTime, jobTick_jobNumber,
      cpuUpdateTime_currentTime, cpuUpdateTime_queue, cpuUpdateTime_totalWaitTime,
      cpuUpdateTime_numWaiting, cpuUpdateTime_totalTurnAroundTime,
      cpuUpdateTime_numTurnAround, cpuUpdateTime_finishedIds, hsq]
  · intro hq tq hsq
    simp only [scheduler_job_finished, hrm]
    rw [hrest]
    rw [cpuUpdateTime_queue]
    rw [hsq]
    simp only [priqueue_poll]
    have hslot : (((cpuUpdateTime s time).cores.set cid none))[cid]? = some none := by
      obtain ⟨hlen, -⟩ := List.getElem?_eq_some_iff.mp hcoreu
      exact List.getElem?_set_self (by simpa using hlen)
    simp only [cpuCoreAssignJob, hslot]
    simp [FinState, jobTick_arrivalTime, jobTick_runTime, jobTick_jobNumber,
      cpuUpdateTime_currentTime, cpuUpdateTime_queue, cpuUpdateTime_totalWaitTime,
      cpuUpdateTime_numWaiting, cpuUpdateTime_totalTurnAroundTime,
      cpuUpdateTime_numTurnAround, cpuUpdateTime_finishedIds, hsq, hslot]

theorem WF_fin_state {s : SchedState} {cid : Nat} {j : Job} {time : Int}
    (h : WF s) (ht : s.currentTime ≤ time)
    (hcore : s.cores[cid]? = some (some j)) :
    WF (FinState s cid j time) := by
  have hu := WF_update time h ht
  have hcoreu := cores_update_getElem s time cid hcore
  have hsplit := liveJobs_core_split (s := cpuUpdateTime s time) hcoreu
  have hids : List.Perm (liveIds (cpuUpdateTime s time))
      ((jobTick time j).1.jobNumber :: liveIds (FinState s cid j time)) := by
    have := hsplit.map Job.jobNumber
    exact this
  have hnd := hu.nodup
  have hnd2 := hids.nodup_iff.mp hnd
  refine ⟨hu.time0, (List.nodup_cons.mp hnd2).2, ?_, ?_, ?_⟩
  · intro n hn hmem
    rcases List.mem_cons.mp hn with rfl | hn'
    · exact (List.nodup_cons.mp hnd2).1 (by rw [jobTick_jobNumber]; exact hmem)
    · exact hu.fin n hn' (hids.symm.subset (List.mem_cons_of_mem _ hmem))
  · intro x hx
    exact hu.qok x hx
  · intro x hx
    rcases List.mem_or_eq_of_mem_set hx with hx' | hx'
    · exact hu.cok x hx'
    · cases hx'

theorem WF_finished {s : SchedState} {cid : Nat} {j : Job} {time r : Int}
    {s' : SchedState} (h : WF s) (ht : s.currentTime ≤ time)
    (hcore : s.cores[cid]? = some (some j))
    (hrun : scheduler_job_finished s (cid : Int) j.jobNumber time = some (r, s')) :
    WF s' := by
  have hqids := queue_core_distinct h hcore
  have heval := scheduler_job_finished_eq time hcore hqids
  have hwfF := WF_fin_state h ht hcore
  cases hsq : s.queue with
  | nil =>
      rw [heval.1 hsq] at hrun
      obtain ⟨-, h2⟩ := Prod.mk.inj (Option.some.inj hrun)
      subst h2
      exact hwfF
  | cons hq tq =>
      rw [heval.2 hq tq hsq] at hrun
      obtain ⟨-, h2⟩ := Prod.mk.inj (Option.some.inj hrun)
      subst h2
      have hFq : (FinState s cid j time).queue = hq :: tq := hsq
      obtain ⟨hwfP, hqok, hfresh, hfin⟩ := WF_pop_parts hwfF hFq
      have hslot : ({ FinState s cid j time with queue := tq } : SchedState).cores[cid]?
          = some none := by
        obtain ⟨hlen, -⟩ := List.getElem?_eq_some_iff.mp
          (cores_update_getElem s time cid hcore)
        exact List.getElem?_set_self (by simpa using hlen)
      exact WF_assign hwfP hslot hqok hfresh hfin

/-- Under RR the comparator never orders the new element before an
existing one, so `priqueue_offer` inserts at the tail. -/
theorem offerPos_RR (x : Job) :
    ∀ q : List Job, offerPos (compare Scheme.RR) x q = q.length := by
  intro q
  induction q with
  | nil => rfl
  | cons y ys ih => simp [offerPos, compare, ih]

theorem scheduler_quantum_expired_eq {s : SchedState} {cid : Nat} {j : Job}
    (time : Int) (hrr : s.scheme = Scheme.RR)
    (hcore : s.cores[cid]? = some (some j)) :
    (s.queue = [] →
      scheduler_quantum_expired s (cid : Int) time =
        some ((jobTick time j).1.jobNumber,
          { cpuUpdateTime s time with
            queue := [],
            cores := ((cpuUpdateTime s time).cores.set cid none).set cid
              (some { (jobTick time j).1 with lastTime := time }) })) ∧
    (∀ hq tq, s.queue = hq :: tq →
      scheduler_quantum_expired s (cid : Int) time =
        some (hq.jobNumber,
          { cpuUpdateTime s time with
            queue := tq ++ [{ (jobTick time j).1 with lastTime := -1 }],
            cores := ((cpuUpdateTime s time).cores.set cid none).set cid
              (some { hq with lastTime := time }) })) := by
  have hcoreu := cores_update_getElem s time cid hcore
  have hrm := cpuCoreRemoveJob_eq (s := cpuUpdateTime s time) hcoreu rfl
  rw [cpuUpdateTime_scheme, hrr, offerPos_RR, List.take_length, List.drop_length] at hrm
  have hnn : (0 : Int) ≤ (cid : Int) := by omega
  have hslot : (((cpuUpdateTime s time).cores.set cid none))[cid]? = some none := by
    obtain ⟨hlen, -⟩ := List.getElem?_eq_some_iff.mp hcoreu
    exact List.getElem?_set_self (by simpa using hlen)
  constructor
  · intro hsq
    simp only [scheduler_quantum_expired, Int.toNat_natCast, if_pos hnn, hcoreu, hrm]
    rw [cpuUpdateTime_queue, hsq]
    simp only [List.nil_append, priqueue_poll]
    simp [cpuCoreAssignJob, hslot, cpuUpdateTime_currentTime]
    rw [cpuUpdateTime_scheme]
    exact hrr.symm
  · intro hq tq hsq
    simp only [scheduler_quantum_expired, Int.toNat_natCast, if_pos hnn, hcoreu, hrm]
    rw [cpuUpdateTime_queue, hsq]
    simp only [List.cons_append, priqueue_poll]
    simp [cpuCoreAssignJob, hslot, cpuUpdateTime_currentTime]
    rw [cpuUpdateTime_scheme]
    exact hrr.symm

theorem WF_quantum {s : SchedState} {cid : Nat} {j : Job} {time r : Int}
    {s' : SchedState} (h : WF s) (hrr : s.scheme = Scheme.RR)
    (ht : s.currentTime ≤ time) (hcore : s.cores[cid]? = some (some j))
    (hrun : scheduler_quantum_expired s (cid : Int) time = some (r, s')) :
    WF s' := by
  have hu := WF_update time h ht
  have hcoreu := cores_update_getElem s time cid hcore
  have heval := scheduler_quantum_expired_eq time hrr hcore
  have hwfrm := WF_remove (cpuUpdateTime s time).queue.length hu hcoreu
  rw [List.take_length, List.drop_length] at hwfrm
  have hslot : (((cpuUpdateTime s time).cores.set cid none))[cid]? = some none := by
    obtain ⟨hlen, -⟩ := List.getElem?_eq_some_iff.mp hcoreu
    exact List.getElem?_set_self (by simpa using hlen)
  cases hsq : s.queue with
  | nil =>
      rw [heval.1 hsq] at hrun
      obtain ⟨-, h2⟩ := Prod.mk.inj (Option.some.inj hrun)
      subst h2
      have hq0 : ((cpuUpdateTime s time).queue ++
          [{ (jobTick time j).1 with lastTime := -1 }]) =
          { (jobTick time j).1 with lastTime := -1 } :: [] := by
        rw [cpuUpdateTime_queue, hsq]
        rfl
      rw [hq0] at hwfrm
      obtain ⟨hwfP, hqok, hfresh, hfin⟩ := WF_pop_parts hwfrm rfl
      exact @WF_assign _ cid { (jobTick time j).1 with lastTime := -1 } hwfP
        (by exact hslot) (by exact hqok) (by exact hfresh) (by exact hfin)
  | cons hq tq =>
      rw [heval.2 hq tq hsq] at hrun
      obtain ⟨-, h2⟩ := Prod.mk.inj (Option.some.inj hrun)
      subst h2
      have hq0 : ((cpuUpdateTime s time).queue ++
          [{ (jobTick time j).1 with lastTime := -1 }]) =
          hq :: (tq ++ [{ (jobTick time j).1 with lastTime := -1 }]) := by
        rw [cpuUpdateTime_queue, hsq]
        rfl
      rw [hq0] at hwfrm
      obtain ⟨hwfP, hqok, hfresh, hfin⟩ := WF_pop_parts hwfrm rfl
      exact WF_assign hwfP (by exact hslot) (by exact hqok) (by exact hfresh)
        (by exact hfin)

/-- C7: under RR, `quantum_expired` on an empty ready queue re-enqueues
the running job and immediately polls it back, so the same job (same id,
now ticked) resumes on the same core and its id is returned; on a
non-empty queue the displaced job is appended after every existing entry
and the previous head is assigned to the core. -/
theorem c7_rr_quantum (s : SchedState) (cid : Nat) (j : Job) (time : Int)
    (hrr : s.scheme = Scheme.RR) (hcore : s.cores[cid]? = some (some j)) :
    (s.queue = [] →
      scheduler_quantum_expired s (cid : Int) time =
        some (j.jobNumber,
          { cpuUpdateTime s time with
            queue := [],
            cores := ((cpuUpdateTime s time).cores.set cid none).set cid
              (some { (jobTick time j).1 with lastTime := time }) })) ∧
    (∀ hq tq, s.queue = hq :: tq →
      scheduler_quantum_expired s (cid : Int) time =
        some (hq.jobNumber,
          { cpuUpdateTime s time with
            queue := tq ++ [{ (jobTick time j).1 with lastTime := -1 }],
            cores := ((cpuUpdateTime s time).cores.set cid none).set cid
              (some { hq with lastTime := time }) })) := by
  have heval := scheduler_quantum_expired_eq time hrr hcore
  refine ⟨?_, heval.2⟩
  intro hsq
  rw [heval.1 hsq, jobTick_jobNumber]

theorem cpuCorePreempt_run (u : SchedState) (cand : Job)
    (hbusy : ∀ oj ∈ u.cores, oj.isSome) :
    cpuCorePreempt u cand = some (-1, u) ∨
    ∃ (k : Nat) (v : Job), u.cores[k]? = some (some v) ∧
      cpuCorePreempt u cand = some ((k : Int),
        { u with
          cores := (u.cores.set k none).set k
            (some { cand with lastTime := u.currentTime }),
          queue := u.queue.take
              (offerPos (compare u.scheme) { v with lastTime := -1 } u.queue) ++
            { v with lastTime := -1 } ::
            u.queue.drop
              (offerPos (compare u.scheme) { v with lastTime := -1 } u.queue) }) := by
  have havail : cpuCoresAvailable u.cores = -1 :=
    (firstIdleFrom_eq_neg_iff u.cores 0).mpr hbusy
  obtain ⟨res, hres, hresinv⟩ := preemptLoop_go (fun j => compare u.scheme cand j)
    u.cores [] 0 none hbusy (by intro j hj; cases hj) (fun _ => rfl)
    (by intro k v hh; cases hh)
  rw [List.length_nil] at hres
  cases res with
  | none =>
      left
      simp [cpuCorePreempt, havail, hres]
  | some kv =>
      obtain ⟨k, v⟩ := kv
      right
      rw [List.nil_append] at hresinv
      simp only [ScanInv] at hresinv
      have hukv : u.cores[k]? = some (some v) :=
        (getElem?_filterMap_id_all_some _ hbusy k v).mp hresinv.1
      obtain ⟨hklen, -⟩ := List.getElem?_eq_some_iff.mp hukv
      have hrm := cpuCoreRemoveJob_eq (s := u) hukv rfl
      have hset : (u.cores.set k none)[k]? = some none :=
        List.getElem?_set_self (by simpa using hklen)
      refine ⟨k, v, hukv, ?_⟩
      simp [cpuCorePreempt, havail, hres, hrm, Int.toNat_natCast,
        cpuCoreAssignJob, hset]

theorem liveIds_remove_perm {s : SchedState} {cid : Nat} {j : Job} (p : Nat)
    (hcore : s.cores[cid]? = some (some j)) :
    List.Perm
      (liveIds { s with
        cores := s.cores.set cid none,
        queue := s.queue.take p ++ { j with lastTime := -1 } :: s.queue.drop p })
      (liveIds s) := by
  have hq1 := queue_insert_perm s.queue { j with lastTime := -1 } p
  have hlive : List.Perm
      (liveJobs { s with
        cores := s.cores.set cid none,
        queue := s.queue.take p ++ { j with lastTime := -1 } :: s.queue.drop p })
      ({ j with lastTime := -1 } :: (s.queue ++ coresJobs (s.cores.set cid none))) := by
    have := hq1.append_right (coresJobs (s.cores.set cid none))
    simpa [liveJobs] using this
  have h1 := hlive.map Job.jobNumber
  have h2 := (liveJobs_core_split hcore).map Job.jobNumber
  exact h1.trans h2.symm

theorem WF_start (n : Nat) (sch : Scheme) : WF (scheduler_start_up n sch) := by
  refine ⟨?_, ?_, ?_, ?_, ?_⟩
  · rw [scheduler_start_up, cpuUpdateTime_currentTime]
  · rw [scheduler_start_up, liveIds_update]
    simp [liveIds, liveJobs, coresJobs, filterMap_id_replicate_none]
  · intro m hm
    exact absurd hm (List.not_mem_nil m)
  · intro x hx
    rw [scheduler_start_up, cpuUpdateTime_queue] at hx
    exact absurd hx (List.not_mem_nil x)
  · intro x hx
    rw [scheduler_start_up, cpuUpdateTime_cores] at hx
    rw [List.map_replicate] at hx
    have := List.eq_of_mem_replicate hx
    cases this

theorem WF_arrive {s : SchedState} {jn time rt pr r : Int} {s' : SchedState}
    (h : WF s) (ht : s.currentTime ≤ time)
    (hfresh : jn ∉ liveIds s) (hfin : jn ∉ s.finishedIds)
    (hrun : scheduler_new_job s jn time rt pr = some (r, s')) : WF s' := by
  have hu := WF_update time h ht
  have hfreshu : jn ∉ liveIds (cpuUpdateTime s time) := by
    rw [liveIds_update]
    exact hfresh
  have hfinu : jn ∉ (cpuUpdateTime s time).finishedIds := hfin
  by_cases hav : cpuCoresAvailable (cpuUpdateTime s time).cores = -1
  · by_cases hps : (cpuUpdateTime s time).scheme = Scheme.PSJF ∨
        (cpuUpdateTime s time).scheme = Scheme.PPRI
    · have hbusyu := (firstIdleFrom_eq_neg_iff _ 0).mp hav
      rcases cpuCorePreempt_run (cpuUpdateTime s time) (newJob jn time rt pr)
          hbusyu with hpre | ⟨k, v, hkv, hpre⟩
      · have hof := priqueue_offer_eq (compare (cpuUpdateTime s time).scheme)
          (cpuUpdateTime s time).queue (newJob jn time rt pr)
        have hrun2 : scheduler_new_job s jn time rt pr =
            some (-1, { cpuUpdateTime s time with
              queue := (cpuUpdateTime s time).queue.take
                  (offerPos (compare (cpuUpdateTime s time).scheme)
                    (newJob jn time rt pr) (cpuUpdateTime s time).queue) ++
                newJob jn time rt pr ::
                (cpuUpdateTime s time).queue.drop
                  (offerPos (compare (cpuUpdateTime s time).scheme)
                    (newJob jn time rt pr) (cpuUpdateTime s time).queue) }) := by
          rcases hps with hx | hx <;>
            (rw [hx] at hof
             simp [scheduler_new_job, hav, hx, hpre, hof])
        rw [hrun2] at hrun
        obtain ⟨-, h2⟩ := Prod.mk.inj (Option.some.inj hrun)
        subst h2
        exact WF_enqueue _ hu (by exact newJob_queuedOK jn time rt pr)
          (by exact hfreshu) (by exact hfinu)
      · have hkne : ((k : Int)) ≠ -1 := by omega
        have hrun2 : scheduler_new_job s jn time rt pr =
            some ((k : Int), { cpuUpdateTime s time with
              cores := ((cpuUpdateTime s time).cores.set k none).set k
                (some { newJob jn time rt pr with
                  lastTime := (cpuUpdateTime s time).currentTime }),
              queue := (cpuUpdateTime s time).queue.take
                  (offerPos (compare (cpuUpdateTime s time).scheme)
                    { v with lastTime := -1 } (cpuUpdateTime s time).queue) ++
                { v with lastTime := -1 } ::
                (cpuUpdateTime s time).queue.drop
                  (offerPos (compare (cpuUpdateTime s time).scheme)
                    { v with lastTime := -1 } (cpuUpdateTime s time).queue) }) := by
          rcases hps with hx | hx <;>
            simp [scheduler_new_job, hav, hx, hpre, hkne]
        rw [hrun2] at hrun
        obtain ⟨-, h2⟩ := Prod.mk.inj (Option.some.inj hrun)
        subst h2
        have hwfrm := WF_remove
          (offerPos (compare (cpuUpdateTime s time).scheme)
            { v with lastTime := -1 } (cpuUpdateTime s time).queue) hu hkv
        have hperm := liveIds_remove_perm
          (offerPos (compare (cpuUpdateTime s time).scheme)
            { v with lastTime := -1 } (cpuUpdateTime s time).queue) hkv
        obtain ⟨hklen, -⟩ := List.getElem?_eq_some_iff.mp hkv
        have hslot2 : ((cpuUpdateTime s time).cores.set k none)[k]? = some none :=
          List.getElem?_set_self (by simpa using hklen)
        exact WF_assign hwfrm (by exact hslot2)
          (by exact newJob_queuedOK jn time rt pr)
          (by intro hm; exact hfreshu (hperm.subset hm)) (by exact hfinu)
    · have hof := priqueue_offer_eq (compare (cpuUpdateTime s time).scheme)
        (cpuUpdateTime s time).queue (newJob jn time rt pr)
      have hrun2 : scheduler_new_job s jn time rt pr =
          some (-1, { cpuUpdateTime s time with
            queue := (cpuUpdateTime s time).queue.take
                (offerPos (compare (cpuUpdateTime s time).scheme)
                  (newJob jn time rt pr) (cpuUpdateTime s time).queue) ++
              newJob jn time rt pr ::
              (cpuUpdateTime s time).queue.drop
                (offerPos (compare (cpuUpdateTime s time).scheme)
                  (newJob jn time rt pr) (cpuUpdateTime s time).queue) }) := by
        simp [scheduler_new_job, hav, hps, hof]
      rw [hrun2] at hrun
      obtain ⟨-, h2⟩ := Prod.mk.inj (Option.some.inj hrun)
      subst h2
      exact WF_enqueue _ hu (by exact newJob_queuedOK jn time rt pr)
        (by exact hfreshu) (by exact hfinu)
  · obtain ⟨i, hi, hslot⟩ := cpuCoresAvailable_found hav
    have hassign := cpuCoreAssignJob_eq (s := cpuUpdateTime s time)
      (newJob jn time rt pr) hslot
    have hine : ((i : Int)) ≠ -1 := by omega
    have hrun2 : scheduler_new_job s jn time rt pr =
        some ((i : Int), { cpuUpdateTime s time with
          cores := (cpuUpdateTime s time).cores.set i
            (some { newJob jn time rt pr with
              lastTime := (cpuUpdateTime s time).currentTime }) }) := by
      simp [scheduler_new_job, hi, Int.toNat_natCast, hine, hassign]
    rw [hrun2] at hrun
    obtain ⟨-, h2⟩ := Prod.mk.inj (Option.some.inj hrun)
    subst h2
    exact WF_assign hu hslot (by exact newJob_queuedOK jn time rt pr)
      (by exact hfreshu) (by exact hfinu)

/-- The valid-event traces: `start_up` followed by arrivals with fresh
ids and strictly increasing unique arrival times at a non-decreasing
clock, completions of a core's current occupant exactly when its
remaining time reaches zero, and RR quantum expirations on occupied
cores, each handler returning without hitting a fatal path. -/
inductive Reachable : SchedState → Prop where
  | init : ∀ (cores : Nat) (scheme : Scheme), 0 < cores →
      Reachable (scheduler_start_up cores scheme)
  | arrive : ∀ {s s' : SchedState} (jn time rt pr r : Int),
      Reachable s → s.currentTime ≤ time →
      (∀ j ∈ liveJobs s, j.arrivalTime < time) →
      jn ∉ liveIds s → jn ∉ s.finishedIds →
      scheduler_new_job s jn time rt pr = some (r, s') → Reachable s'
  | finish : ∀ {s s' : SchedState} (cid : Nat) {j : Job} (time r : Int),
      Reachable s → s.currentTime ≤ time →
      s.cores[cid]? = some (some j) →
      (jobTick time j).1.remainingTime = 0 →
      scheduler_job_finished s (cid : Int) j.jobNumber time = some (r, s') →
      Reachable s'
  | quantum : ∀ {s s' : SchedState} (cid : Nat) {j : Job} (time r : Int),
      Reachable s → s.scheme = Scheme.RR → s.currentTime ≤ time →
      s.cores[cid]? = some (some j) →
      scheduler_quantum_expired s (cid : Int) time = some (r, s') →
      Reachable s'

/-- Every state reachable by valid events satisfies the invariant. -/
theorem reachable_WF : ∀ {s : SchedState}, Reachable s → WF s := by
  intro s h
  induction h with
  | init n sch hpos => exact WF_start n sch
  | arrive jn time rt pr r hs ht harr hfresh hfin hrun ih =>
      exact WF_arrive ih ht hfresh hfin hrun
  | finish cid time r hs ht hcore hdone hrun ih =>
      exact WF_finished ih ht hcore hrun
  | quantum cid time r hs hrr ht hcore hrun ih =>
      exact WF_quantum ih hrr ht hcore hrun

/-- C2: along every valid event trace, between handler calls every live
job is held by exactly one container — its id occurs exactly once across
the ready queue and the core array together — and a finished job's id
occurs in neither container. -/
theorem c2_single_container (s : SchedState) (hs : Reachable s) :
    (liveIds s).Nodup ∧ ∀ n ∈ s.finishedIds, n ∉ liveIds s :=
  ⟨(reachable_WF hs).nodup, (reachable_WF hs).fin⟩

/-- A job produced by one arrival on one core, used by the witnesses. -/
def sampleJob : Job :=
  { jobNumber := 7, arrivalTime := 0, runTime := 2, remainingTime := 2,
    priority := 0, initTime := -1, lastTime := 0 }

/-- The state after `start_up(1, FCFS)` and `job_arrived(7, 0, 2, 0)`. -/
def sampleS1 : SchedState :=
  { scheme := Scheme.FCFS, queue := [], cores := [some sampleJob],
    currentTime := 0, totalWaitTime := 0, numWaiting := 0,
    totalRespTime := 0, numResponse := 0, totalTurnAroundTime := 0,
    numTurnAround := 0, finishedIds := [] }

theorem sampleS1_reachable : Reachable sampleS1 :=
  Reachable.arrive 7 0 2 0 0 (Reachable.init 1 Scheme.FCFS (by decide))
    (by decide) (by decide) (by decide) (by decide) (by decide)

theorem c2_single_container_witness :
    (liveIds sampleS1).Nodup ∧
    ∀ n ∈ sampleS1.finishedIds, n ∉ liveIds sampleS1 :=
  c2_single_container sampleS1 sampleS1_reachable

/-- C8: for a job finished at `time` under valid events, the credited
wait equals `time - arrival - run_time`, which is turnaround minus
run_time and is non-negative; turnaround is at least the run time; and
when the job has a first-dispatch time, its credited response
`first_dispatch - arrival` is at most the wait. -/
theorem c8_accounting (s : SchedState) (cid : Nat) (j : Job) (time : Int)
    (hs : Reachable s) (hcore : s.cores[cid]? = some (some j))
    (ht : s.currentTime ≤ time)
    (hdone : (jobTick time j).1.remainingTime = 0) :
    ∃ r s', scheduler_job_finished s (cid : Int) j.jobNumber time = some (r, s') ∧
      s'.totalWaitTime = s.totalWaitTime + (time - j.arrivalTime - j.runTime) ∧
      s'.totalTurnAroundTime = s.totalTurnAroundTime + (time - j.arrivalTime) ∧
      time - j.arrivalTime - j.runTime = (time - j.arrivalTime) - j.runTime ∧
      0 ≤ time - j.arrivalTime - j.runTime ∧
      j.runTime ≤ time - j.arrivalTime ∧
      ((jobTick time j).1.initTime ≠ -1 →
        (jobTick time j).1.initTime - j.arrivalTime ≤
          time - j.arrivalTime - j.runTime) := by
  have h := reachable_WF hs
  have hu := WF_update time h ht
  have hcoreu := cores_update_getElem s time cid hcore
  have hrj : JobRunningOK time (jobTick time j).1 :=
    hu.cok (jobTick time j).1 (List.getElem?_mem hcoreu)
  obtain ⟨hl0, hlle, hrle, harr2, hinit0, hinit1⟩ := hrj
  have hrT := jobTick_runTime time j
  have haT := jobTick_arrivalTime time j
  have key1 : 0 ≤ time - j.arrivalTime - j.runTime := by omega
  have key2 : j.runTime ≤ time - j.arrivalTime := by omega
  have key3 : (jobTick time j).1.initTime ≠ -1 →
      (jobTick time j).1.initTime - j.arrivalTime ≤
        time - j.arrivalTime - j.runTime := by
    intro hne
    have := hinit1 hne
    omega
  have hqids := queue_core_distinct h hcore
  have heval := scheduler_job_finished_eq time hcore hqids
  cases hsq : s.queue with
  | nil =>
      exact ⟨-1, _, heval.1 hsq, rfl, rfl, by omega, key1, key2, key3⟩
  | cons hq tq =>
      exact ⟨hq.jobNumber, _, heval.2 hq tq hsq, rfl, rfl, by omega, key1, key2, key3⟩

theorem c8_accounting_witness :
    ∃ r s', scheduler_job_finished sampleS1 ((0 : Nat) : Int)
        sampleJob.jobNumber 2 = some (r, s') ∧
      s'.totalWaitTime = sampleS1.totalWaitTime +
        (2 - sampleJob.arrivalTime - sampleJob.runTime) ∧
      s'.totalTurnAroundTime = sampleS1.totalTurnAroundTime +
        (2 - sampleJob.arrivalTime) ∧
      2 - sampleJob.arrivalTime - sampleJob.runTime =
        (2 - sampleJob.arrivalTime) - sampleJob.runTime ∧
      0 ≤ 2 - sampleJob.arrivalTime - sampleJob.runTime ∧
      sampleJob.runTime ≤ 2 - sampleJob.arrivalTime ∧
      ((jobTick 2 sampleJob).1.initTime ≠ -1 →
        (jobTick 2 sampleJob).1.initTime - sampleJob.arrivalTime ≤
          2 - sampleJob.arrivalTime - sampleJob.runTime) :=
  c8_accounting sampleS1 0 sampleJob 2 sampleS1_reachable
    (by decide) (by decide) (by decide)

theorem c7_rr_quantum_witness :
    (([jC] : List Job) = [] →
      scheduler_quantum_expired
        { scheme := Scheme.RR, queue := [jC], cores := [some jB],
          currentTime := 1, totalWaitTime := 0, numWaiting := 0,
          totalRespTime := 0, numResponse := 0, totalTurnAroundTime := 0,
          numTurnAround := 0, finishedIds := [] } ((0 : Nat) : Int) 3 =
        some (jB.jobNumber,
          { cpuUpdateTime
              { scheme := Scheme.RR, queue := [jC], cores := [some jB],
                currentTime := 1, totalWaitTime := 0, numWaiting := 0,
                totalRespTime := 0, numResponse := 0, totalTurnAroundTime := 0,
                numTurnAround := 0, finishedIds := [] } 3 with
            queue := [],
            cores := (((cpuUpdateTime
              { scheme := Scheme.RR, queue := [jC], cores := [some jB],
                currentTime := 1, totalWaitTime := 0, numWaiting := 0,
                totalRespTime := 0, numResponse := 0, totalTurnAroundTime := 0,
                numTurnAround := 0, finishedIds := [] } 3).cores.set 0 none).set 0
              (some { (jobTick 3 jB).1 with lastTime := 3 })) })) ∧
    (∀ hq tq, ([jC] : List Job) = hq :: tq →
      scheduler_quantum_expired
        { scheme := Scheme.RR, queue := [jC], cores := [some jB],
          currentTime := 1, totalWaitTime := 0, numWaiting := 0,
          totalRespTime := 0, numResponse := 0, totalTurnAroundTime := 0,
          numTurnAround := 0, finishedIds := [] } ((0 : Nat) : Int) 3 =
        some (hq.jobNumber,
          { cpuUpdateTime
              { scheme := Scheme.RR, queue := [jC], cores := [some jB],
                currentTime := 1, totalWaitTime := 0, numWaiting := 0,
                totalRespTime := 0, numResponse := 0, totalTurnAroundTime := 0,
                numTurnAround := 0, finishedIds := [] } 3 with
            queue := tq ++ [{ (jobTick 3 jB).1 with lastTime := -1 }],
            cores := (((cpuUpdateTime
              { scheme := Scheme.RR, queue := [jC], cores := [some jB],
                currentTime := 1, totalWaitTime := 0, numWaiting := 0,
                totalRespTime := 0, numResponse := 0, totalTurnAroundTime := 0,
                numTurnAround := 0, finishedIds := [] } 3).cores.set 0 none).set 0
              (some { hq with lastTime := 3 })) })) :=
  c7_rr_quantum
    { scheme := Scheme.RR, queue := [jC], cores := [some jB],
      currentTime := 1, totalWaitTime := 0, numWaiting := 0,
      totalRespTime := 0, numResponse := 0, totalTurnAroundTime := 0,
      numTurnAround := 0, finishedIds := [] } 0 jB 3 rfl rfl

end Sched
